import Mathlib

/-!
Verification of the slash-command autocomplete subsystem of the OpenDevin
frontend: the markdown stripper and skill-description extractor of
slash-command-menu.tsx, and the state/selection logic of
use-slash-command.ts.  JavaScript strings are modelled as List Char;
the concrete regular expressions of the source are modelled by dedicated
matching functions with the exact backtracking semantics of the
JavaScript engine (leftmost match, greedy and lazy quantifiers).
-/

namespace OpenDevin

/-- Line-terminator characters of JavaScript regexes: the characters that
the dot metacharacter does not match. -/
def lineTerm (c : Char) : Bool :=
  c = '\n' || c = '\r' || c = '\u2028' || c = '\u2029'

/-- JavaScript whitespace class (backslash-s of a regex, and the
characters removed by String.prototype.trim). -/
def jsSpace (c : Char) : Bool :=
  lineTerm c || c = ' ' || c = '\t' || c = '\x0b' || c = '\x0c' ||
  c = '\u00A0' || c = '\u1680' || (0x2000 ≤ c.val && c.val ≤ 0x200A) ||
  c = '\u202F' || c = '\u205F' || c = '\u3000' || c = '\uFEFF'

/-- Index of the leftmost occurrence of pat as a contiguous sublist, if any
(JavaScript String.prototype.includes / leftmost regex match position). -/
def findSub (pat : List Char) : List Char → Option Nat
  | [] => if pat.isPrefixOf ([] : List Char) then some 0 else none
  | c :: rest =>
    if pat.isPrefixOf (c :: rest) then some 0
    else (findSub pat rest).map (· + 1)

/-- Close search for a lazy pair pattern D(.+?)D: find the shortest
non-empty content of non-line-terminator characters followed by the
closing delimiter D; returns the content and the remainder after the
closing delimiter. -/
def findClose (D : List Char) : List Char → Option (List Char × List Char)
  | [] => none
  | c :: rest =>
    if lineTerm c then none
    else if D.isPrefixOf rest then some ([c], rest.drop D.length)
    else
      match findClose D rest with
      | some (content, r) => some (c :: content, r)
      | none => none

/-- One global-replace pass of a lazy pair pattern D(.+?)D with
replacement by the captured content, fuelled so it reduces in the
kernel.  Mirrors String.prototype.replace with the g flag: scan left to
right, on a match emit the capture and continue after the match,
otherwise advance one character. -/
def replacePairF (D : List Char) : Nat → List Char → List Char
  | _, [] => []
  | 0, s => s
  | fuel + 1, c :: rest =>
    if D.isPrefixOf (c :: rest) then
      match findClose D ((c :: rest).drop D.length) with
      | some (content, r) => content ++ replacePairF D fuel r
      | none => c :: replacePairF D fuel rest
    else c :: replacePairF D fuel rest

/-- Global replace of D(.+?)D by the captured content. -/
def replacePair (D : List Char) (s : List Char) : List Char :=
  replacePairF D s.length s

/-- Matcher for the bracket body of the image/link patterns: a run of
non-bracket characters, a literal close bracket and open parenthesis, a
run of non-parenthesis characters and a close parenthesis.  Returns the
alt text and the remainder. -/
def bracketCore (t : List Char) : Option (List Char × List Char) :=
  match t.dropWhile (fun c => c != ']') with
  | ']' :: '(' :: t2 =>
    match t2.dropWhile (fun c => c != ')') with
    | ')' :: r3 => some (t.takeWhile (fun c => c != ']'), r3)
    | _ => none
  | _ => none

/-- Match of the image pattern (bang true) or link pattern (bang false)
at the head of s. -/
def matchBracket (bang : Bool) (s : List Char) : Option (List Char × List Char) :=
  if bang then
    match s with
    | c1 :: c2 :: t => if c1 = '!' && c2 = '[' then bracketCore t else none
    | _ => none
  else
    match s with
    | c1 :: t => if c1 = '[' then bracketCore t else none
    | _ => none

/-- One global-replace pass of the image or link pattern with
replacement by the alt text, fuelled. -/
def replaceBracketF (bang : Bool) : Nat → List Char → List Char
  | _, [] => []
  | 0, s => s
  | fuel + 1, c :: rest =>
    match matchBracket bang (c :: rest) with
    | some (alt, r) => alt ++ replaceBracketF bang fuel r
    | none => c :: replaceBracketF bang fuel rest

/-- Global replace of the image (bang true) or link (bang false)
pattern by the alt text. -/
def replaceBracket (bang : Bool) (s : List Char) : List Char :=
  replaceBracketF bang s.length s

/-- The backtick character. -/
def btick : Char := '\x60'

/-- stripMarkdown on character lists: the ten replacement passes of the
source, applied in source order (images, links, triple/double/single
star, triple/double/single underscore, inline code, strikethrough). -/
def stripMarkdownL (s : List Char) : List Char :=
  replacePair ['~', '~'] <|
  replacePair [btick] <|
  replacePair ['_'] <|
  replacePair ['_', '_'] <|
  replacePair ['_', '_', '_'] <|
  replacePair ['*'] <|
  replacePair ['*', '*'] <|
  replacePair ['*', '*', '*'] <|
  replaceBracket false <|
  replaceBracket true s

/-- Strip common inline Markdown syntax so descriptions render as plain
text (stripMarkdown of slash-command-menu.tsx). -/
def stripMarkdown (text : String) : String :=
  ⟨stripMarkdownL text.data⟩

/-- The pattern closing a frontmatter block: a newline and three dashes. -/
def nlDashes : List Char := ['\n', '-', '-', '-']

/-- Attempt of the frontmatter regex with the whitespace run fixed at
length k: a newline must follow the run, then the lazy group runs to
the leftmost newline-dashes closer.  Returns the captured group and the
length of the whole match. -/
def fmAt (rest : List Char) (k : Nat) : Option (List Char × Nat) :=
  if (rest.drop k).head? = some '\n' then
    match findSub nlDashes (rest.drop (k + 1)) with
    | some g => some ((rest.drop (k + 1)).take g, 3 + k + 1 + g + 4)
    | none => none
  else none

/-- Backtracking of the greedy whitespace run of the frontmatter regex:
try the longest run first, then shorter ones down to zero. -/
def fmTry (rest : List Char) : Nat → Option (List Char × Nat)
  | 0 => fmAt rest 0
  | k + 1 =>
    match fmAt rest (k + 1) with
    | some r => some r
    | none => fmTry rest k

/-- Model of content.match of the frontmatter regex (anchored dashes,
greedy whitespace, newline, lazy any-character group, newline-dashes):
the captured group and the length of match zero, or none. -/
def frontmatterMatch (s : List Char) : Option (List Char × Nat) :=
  if ['-', '-', '-'].isPrefixOf s then
    fmTry (s.drop 3) (((s.drop 3).takeWhile jsSpace).length)
  else none

/-- The literal characters of the description field name with its colon. -/
def descKey : List Char :=
  ['d', 'e', 's', 'c', 'r', 'i', 'p', 't', 'i', 'o', 'n', ':']

/-- Greedy dot-plus group of the description regex with the whitespace
run fixed at length k: succeeds when a non-line-terminator character
stands at position k, capturing the maximal run of such characters. -/
def descGroup (u : List Char) (k : Nat) : Option (List Char) :=
  match (u.drop k).head? with
  | some c =>
    if lineTerm c then none
    else some ((u.drop k).takeWhile (fun x => !lineTerm x))
  | none => none

/-- Backtracking of the greedy whitespace run after the description key:
longest run first, down to zero. -/
def descLoop (u : List Char) : Nat → Option (List Char)
  | 0 => descGroup u 0
  | k + 1 =>
    match descGroup u (k + 1) with
    | some r => some r
    | none => descLoop u k

/-- Match of the tail of the description regex (whitespace run then a
non-empty line-bounded capture) against what follows the key. -/
def descTail (u : List Char) : Option (List Char) :=
  descLoop u ((u.takeWhile jsSpace).length)

/-- Attempt of the description regex at one line start. -/
def descAt (t : List Char) : Option (List Char) :=
  if descKey.isPrefixOf t then descTail (t.drop descKey.length) else none

/-- Advance to the next line start: drop characters up to and including
the next line terminator.  Multiline anchors of JavaScript regexes
match after every line terminator (newline, carriage return and the
unicode line and paragraph separators), not only after a newline. -/
def dropLine : List Char → List Char
  | [] => []
  | c :: rest => if lineTerm c then rest else dropLine rest

/-- Model of the multiline-anchored search for the description field
inside the frontmatter group: try every line start left to right,
fuelled so it reduces in the kernel. -/
def descSearchF : Nat → List Char → Option (List Char)
  | 0, t => descAt t
  | fuel + 1, t =>
    match descAt t with
    | some r => some r
    | none =>
      match t with
      | [] => none
      | _ :: _ => descSearchF fuel (dropLine t)

/-- Leftmost multiline match of the description regex in the group. -/
def descSearch (t : List Char) : Option (List Char) :=
  descSearchF t.length t

/-- JavaScript String.prototype.trim: remove whitespace from both ends. -/
def jsTrim (l : List Char) : List Char :=
  ((l.dropWhile jsSpace).reverse.dropWhile jsSpace).reverse

/-- The double-quote character. -/
def dquote : Char := Char.ofNat 34

/-- The single-quote character. -/
def squote : Char := Char.ofNat 39

/-- Strip one matching pair of surrounding double or single quotes from
a YAML value, as the source does with startsWith/endsWith and
slice(1, -1). -/
def stripQuotes (d : List Char) : List Char :=
  if (d.head? = some dquote && d.getLast? = some dquote) ||
     (d.head? = some squote && d.getLast? = some squote) then
    (d.drop 1).dropLast
  else d

/-- JavaScript String.prototype.split on a newline separator. -/
def splitOnNl : List Char → List (List Char)
  | [] => [[]]
  | c :: rest =>
    if c = '\n' then [] :: splitOnNl rest
    else
      match splitOnNl rest with
      | [] => [[c]]
      | l :: ls => (c :: l) :: ls

/-- The meaningful-line test of the body fallback: non-empty, not a
heading, not a frontmatter delimiter. -/
def meaningfulLine (l : List Char) : Bool :=
  decide (0 < l.length) && !(['#'].isPrefixOf l) && !(l == ['-', '-', '-'])

/-- Model of the anchored first-sentence regex: a run of characters that
are neither sentence terminators nor a newline, then one terminator. -/
def firstSentence : List Char → Option (List Char)
  | [] => none
  | c :: rest =>
    if c = '.' ∨ c = '!' ∨ c = '?' then some [c]
    else if c = '\n' then none
    else (firstSentence rest).map (c :: ·)

/-- Body fallback of getSkillDescription: first meaningful trimmed line,
markdown-stripped, cut at the first sentence terminator when one
exists. -/
def bodyDescription (body : List Char) : Option (List Char) :=
  match ((splitOnNl body).map jsTrim).find? meaningfulLine with
  | none => none
  | some line =>
    match firstSentence (stripMarkdownL line) with
    | some s => some s
    | none => some (stripMarkdownL line)

/-- getSkillDescription of slash-command-menu.tsx on character lists:
frontmatter description field first, else the body fallback on the text
after the frontmatter block. -/
def getSkillDescriptionL (content : List Char) : Option (List Char) :=
  match frontmatterMatch content with
  | some (g, mlen) =>
    match descSearch g with
    | some desc => some (stripMarkdownL (stripQuotes (jsTrim desc)))
    | none => bodyDescription (content.drop mlen)
  | none => bodyDescription content

/-- Extract a short description from skill content
(getSkillDescription of slash-command-menu.tsx). -/
def getSkillDescription (content : String) : Option String :=
  (getSkillDescriptionL content.data).map (fun l => ⟨l⟩)

/-- A skill or microagent record as consumed by the hook: a name, an
optional type discriminator, an optional trigger list and optional
markdown content. -/
structure Skill where
  name : String
  type : Option String
  triggers : Option (List String)
  content : Option String
deriving DecidableEq, Repr

/-- A slash-command menu candidate: the skill and its command string. -/
structure SlashCommandItem where
  skill : Skill
  command : String
deriving DecidableEq, Repr

/-- Candidate construction of useSlashCommand (slashItems): skills with
explicit slash triggers contribute one candidate per such trigger, and
agentskills without slash triggers get a derived slash-name command. -/
def slashItems (skills : Option (List Skill)) : List SlashCommandItem :=
  match skills with
  | none => []
  | some sl =>
    sl.foldl
      (fun (items : List SlashCommandItem) (skill : Skill) =>
        let triggers := skill.triggers.getD []
        let slashTriggers := triggers.filter (fun t => ['/'].isPrefixOf t.data)
        if 0 < slashTriggers.length then
          items ++ slashTriggers.map (fun trigger => ⟨skill, trigger⟩)
        else if skill.type = some "agentskills" then
          items ++ [⟨skill, "/" ++ skill.name⟩]
        else items)
      []

/-- JavaScript toLowerCase on a character list (ASCII case map). -/
def lowerL (l : List Char) : List Char :=
  l.map Char.toLower

/-- JavaScript String.prototype.includes. -/
def containsSub (pat : List Char) (hay : List Char) : Bool :=
  (findSub pat hay).isSome

/-- Filtering of useSlashCommand (filteredItems): empty filter text
keeps everything; otherwise keep items whose command without the
leading slash, or whose skill name, contains the lowercased filter. -/
def filteredItems (items : List SlashCommandItem) (filterText : String) : List SlashCommandItem :=
  if filterText = "" then items
  else
    let lower := lowerL filterText.data
    items.filter
      (fun item =>
        containsSub lower (lowerL (item.command.data.drop 1)) ||
        containsSub lower (lowerL item.skill.name.data))

/-- The menu state of useSlashCommand: open flag, filter text,
highlighted index and the recorded slash-word range. -/
structure MenuState where
  isMenuOpen : Bool
  filterText : String
  selectedIndex : Nat
  slashRange : Option (Nat × Nat)
deriving DecidableEq, Repr

/-- updateSlashMenu of useSlashCommand: with a detected slash word and a
non-empty unfiltered candidate list, open the menu, record filter text
and range; otherwise close and clear filter and range. -/
def updateSlashMenu (detected : Option (String × Nat × Nat)) (items : List SlashCommandItem)
    (st : MenuState) : MenuState :=
  match detected with
  | some (text, s, e) =>
    if 0 < items.length then
      { st with isMenuOpen := true, filterText := text, slashRange := some (s, e) }
    else { st with isMenuOpen := false, filterText := "", slashRange := none }
  | none => { st with isMenuOpen := false, filterText := "", slashRange := none }

/-- The text and caret effect of selectItem of useSlashCommand: with a
recorded range, splice the command and a trailing space over exactly
that range and clamp the caret to the new length; without a range,
replace everything and put the caret at the end. -/
def selectItem (currentText : String) (slashRange : Option (Nat × Nat))
    (command : String) : String × Nat :=
  let replacement := command ++ " "
  match slashRange with
  | some (s, e) =>
    let newText : List Char := currentText.data.take s ++ replacement.data ++ currentText.data.drop e
    (⟨newText⟩, min (s + replacement.length) newText.length)
  | none => (replacement, replacement.length)

/-- The observable outcome of one handleSlashKeyDown call: the returned
consumed flag, whether the default action was suppressed, the next
open flag and highlighted index, and the committed item if any. -/
structure KeyResult where
  consumed : Bool
  prevented : Bool
  nextOpen : Bool
  nextSelectedIndex : Nat
  committed : Option SlashCommandItem
deriving DecidableEq, Repr

/-- handleSlashKeyDown of useSlashCommand on the latest state: arrow
keys cycle with wraparound, Enter and Tab commit the highlighted item,
Escape closes, the four caret-movement keys close without consuming,
and everything else falls through. -/
def handleSlashKeyDown (isMenuOpen : Bool) (items : List SlashCommandItem)
    (selectedIndex : Nat) (key : String) : KeyResult :=
  if !isMenuOpen || items.length == 0 then
    ⟨false, false, isMenuOpen, selectedIndex, none⟩
  else if key = "ArrowDown" then
    ⟨true, true, isMenuOpen,
      if selectedIndex < items.length - 1 then selectedIndex + 1 else 0, none⟩
  else if key = "ArrowUp" then
    ⟨true, true, isMenuOpen,
      if 0 < selectedIndex then selectedIndex - 1 else items.length - 1, none⟩
  else if key = "Enter" || key = "Tab" then
    match items[selectedIndex]? with
    | none => ⟨false, false, isMenuOpen, selectedIndex, none⟩
    | some item => ⟨true, true, false, 0, some item⟩
  else if key = "Escape" then
    ⟨true, true, false, selectedIndex, none⟩
  else if key = "ArrowLeft" || key = "ArrowRight" || key = "Home" || key = "End" then
    ⟨false, false, false, selectedIndex, none⟩
  else ⟨false, false, isMenuOpen, selectedIndex, none⟩

/-- The effect on the highlighted index of a change of the filter text:
the reset effect of useSlashCommand sets it to zero. -/
def onFilterTextChange (st : MenuState) : MenuState :=
  { st with selectedIndex := 0 }

/-- The frontmatter description field of the content, when the content
has a frontmatter block holding one. -/
def fmDescription (s : List Char) : Option (List Char) :=
  match frontmatterMatch s with
  | some (g, _) => descSearch g
  | none => none

/-- The content with its frontmatter block removed, when one is
present. -/
def bodyAfterFrontmatter (s : List Char) : List Char :=
  match frontmatterMatch s with
  | some (_, mlen) => s.drop mlen
  | none => s

/-- Modelled from the spec: the first sentence of a line, the prefix up
to and including the first period, exclamation or question mark, or the
whole line when no terminator exists. -/
def specSentence : List Char → List Char
  | [] => []
  | c :: rest =>
    if c = '.' ∨ c = '!' ∨ c = '?' then [c]
    else c :: specSentence rest

/-- Modelled from the spec: a meaningful line is non-empty, does not
start with a hash and is not a frontmatter delimiter. -/
def specMeaningful (l : List Char) : Bool :=
  !l.isEmpty && !(l.head? == some '#') && !(l == ['-', '-', '-'])

/-- Modelled from the spec: scan the trimmed lines of the body top to
bottom for the first meaningful one, strip markdown from it, and return
its first sentence; none when no meaningful line exists. -/
def specBodyDescription (b : List Char) : Option (List Char) :=
  match ((splitOnNl b).map jsTrim).find? specMeaningful with
  | none => none
  | some line => some (specSentence (stripMarkdownL line))

/-- Modelled from the spec: the candidates contributed by one skill;
one per slash trigger, else a derived slash-name command for
agentskills, else nothing. -/
def specCandidates (sk : Skill) : List SlashCommandItem :=
  let slashTrig := (sk.triggers.getD []).filter (fun t => ['/'].isPrefixOf t.data)
  if slashTrig = [] then
    if sk.type = some "agentskills" then [⟨sk, "/" ++ sk.name⟩] else []
  else slashTrig.map (fun t => ⟨sk, t⟩)

/-- Modelled from the spec: case-insensitive substring containment. -/
def containsCI (hay : String) (pat : String) : Bool :=
  containsSub (lowerL pat.data) (lowerL hay.data)

/-- A match of the lazy pair pattern D(.+?)D at the head of s. -/
def pairMatchAt (D : List Char) (s : List Char) : Bool :=
  D.isPrefixOf s && (findClose D (s.drop D.length)).isSome

/-- Whether f holds of some suffix of s. -/
def existsSuffix (f : List Char → Bool) : List Char → Bool
  | [] => f []
  | c :: rest => f (c :: rest) || existsSuffix f rest

/-- A string on which none of the ten markdown patterns matches
anywhere: stripMarkdown leaves such a string unchanged. -/
def isClean (s : List Char) : Bool :=
  !existsSuffix (fun t => (matchBracket true t).isSome) s &&
  !existsSuffix (fun t => (matchBracket false t).isSome) s &&
  !existsSuffix (pairMatchAt ['*', '*', '*']) s &&
  !existsSuffix (pairMatchAt ['*', '*']) s &&
  !existsSuffix (pairMatchAt ['*']) s &&
  !existsSuffix (pairMatchAt ['_', '_', '_']) s &&
  !existsSuffix (pairMatchAt ['_', '_']) s &&
  !existsSuffix (pairMatchAt ['_']) s &&
  !existsSuffix (pairMatchAt [btick]) s &&
  !existsSuffix (pairMatchAt ['~', '~']) s

/-- A plain character: none of the delimiter characters of the ten
markdown patterns and no line terminator. -/
def plainChar (c : Char) : Bool :=
  !(c = '!' || c = '[' || c = ']' || c = '(' || c = ')' ||
    c = '*' || c = '_' || c = btick || c = '~' || lineTerm c)

/-- A string of plain characters only. -/
def plainStr (s : String) : Bool :=
  s.data.all plainChar

/-- Join frontmatter lines, each followed by a newline. -/
def joinLinesL (lines : List (List Char)) : List Char :=
  lines.foldr (fun l acc => l ++ '\n' :: acc) []

/-- Join frontmatter lines, each preceded by a newline. -/
def prefixJoinL (lines : List (List Char)) : List Char :=
  lines.foldr (fun l acc => '\n' :: (l ++ acc)) []

/-- Join frontmatter lines of a schema at the string level, each
followed by a newline. -/
def joinLines (lines : List String) : String :=
  lines.foldr (fun l acc => l ++ "\n" ++ acc) ""

/-- Join frontmatter lines of a schema at the string level, each
preceded by a newline. -/
def prefixLines (lines : List String) : String :=
  lines.foldr (fun l acc => "\n" ++ l ++ acc) ""

/-- A well-formed frontmatter line standing before the description
field: non-empty, free of line terminators, starting with neither
whitespace nor a dash, and not itself beginning the description key. -/
def goodFmLine (l : List Char) : Bool :=
  !l.isEmpty && l.all (fun c => !lineTerm c) &&
  (l.head?.all fun c => !jsSpace c && c != '-') &&
  !(descKey.isPrefixOf (l ++ ['\n']))

/-- A well-formed frontmatter line standing after the description
field: non-empty, free of line terminators and not starting with a
dash. -/
def goodPostLine (l : List Char) : Bool :=
  !l.isEmpty && l.all (fun c => !lineTerm c) &&
  (l.head?.all fun c => c != '-')

/-- A demonstration skill with an explicit slash trigger. -/
def demoSkillA : Skill := ⟨"a", none, some ["/a"], none⟩

/-- A demonstration agentskills skill without slash triggers. -/
def demoSkillB : Skill := ⟨"b", some "agentskills", some [], none⟩

/-- A demonstration skill named random-number. -/
def demoSkillRandom : Skill := ⟨"random-number", none, some ["/random-number"], none⟩

/-- A demonstration skill named code-search. -/
def demoSkillCode : Skill := ⟨"code-search", none, some ["/code-search"], none⟩

/-- The random-number candidate. -/
def demoItemRandom : SlashCommandItem := ⟨demoSkillRandom, "/random-number"⟩

/-- The code-search candidate. -/
def demoItemCode : SlashCommandItem := ⟨demoSkillCode, "/code-search"⟩

/-! ### Generic list lemmas -/

theorem isPrefixOf_append_self (p r : List Char) : p.isPrefixOf (p ++ r) = true := by
  induction p with
  | nil => simp [List.isPrefixOf]
  | cons c t ih => simp [List.isPrefixOf, ih]

theorem isPrefixOf_cons_ne (x y : Char) (p t : List Char) (h : y ≠ x) :
    (x :: p).isPrefixOf (y :: t) = false := by
  have hxy : (x == y) = false := beq_eq_false_iff_ne.mpr (Ne.symm h)
  simp [List.isPrefixOf, hxy]

theorem takeWhile_append_of_all {p : Char → Bool} (l m : List Char)
    (h : ∀ c ∈ l, p c = true) :
    (l ++ m).takeWhile p = l ++ m.takeWhile p := by
  rw [List.takeWhile_append, List.takeWhile_eq_self_iff.mpr h, if_pos rfl]

theorem dropWhile_append_of_all {p : Char → Bool} (l m : List Char)
    (h : ∀ c ∈ l, p c = true) :
    (l ++ m).dropWhile p = m.dropWhile p := by
  rw [List.dropWhile_append, if_pos]
  rw [List.dropWhile_eq_nil_iff.mpr h]
  rfl

theorem mem_of_mem_dropWhile {p : Char → Bool} {l : List Char} {c : Char}
    (h : c ∈ l.dropWhile p) : c ∈ l :=
  List.Sublist.mem h (List.dropWhile_sublist p)

theorem head_dropWhile_false {p : Char → Bool} {l : List Char} {c : Char} {t : List Char}
    (h : l.dropWhile p = c :: t) : p c = false := by
  have hh := List.head?_dropWhile_not p l
  rw [h] at hh
  simpa using hh

theorem drop_takeWhile_length (p : Char → Bool) (l : List Char) :
    l.drop (l.takeWhile p).length = l.dropWhile p := by
  have hsplit := List.takeWhile_append_dropWhile p l
  calc l.drop (l.takeWhile p).length
      = (l.takeWhile p ++ l.dropWhile p).drop (l.takeWhile p).length := by rw [hsplit]
    _ = l.dropWhile p := List.drop_left _ _

/-! ### findSub lemmas -/

theorem findSub_cons_eq (pat : List Char) (c : Char) (rest : List Char) :
    findSub pat (c :: rest) =
      if pat.isPrefixOf (c :: rest) then some 0 else (findSub pat rest).map (· + 1) := rfl

theorem findSub_nil (x : Char) (p : List Char) : findSub (x :: p) [] = none := by
  simp [findSub, List.isPrefixOf]

theorem findSub_append_none (x : Char) (p : List Char) :
    ∀ (L M : List Char), (∀ c ∈ L, c ≠ x) → findSub (x :: p) M = none →
      findSub (x :: p) (L ++ M) = none := by
  intro L
  induction L with
  | nil => intro M _ hM; simpa using hM
  | cons c L ih =>
    intro M hL hM
    have hc : c ≠ x := hL c (by simp)
    have hrest := ih M (fun d hd => hL d (by simp [hd])) hM
    simp only [List.cons_append, findSub_cons_eq]
    rw [isPrefixOf_cons_ne x c p _ hc]
    simp [hrest]

theorem findSub_all_ne (x : Char) (p : List Char) (s : List Char)
    (h : ∀ c ∈ s, c ≠ x) : findSub (x :: p) s = none := by
  have := findSub_append_none x p s [] h (findSub_nil x p)
  simpa using this

theorem findSub_boundary (x : Char) (p : List Char) (L R : List Char)
    (hL : ∀ c ∈ L, c ≠ x) :
    findSub (x :: p) (L ++ (x :: p) ++ R) = some L.length := by
  induction L with
  | nil =>
    have h2 : (x :: p).isPrefixOf (x :: (p ++ R)) = true := by
      rw [← List.cons_append]
      exact isPrefixOf_append_self _ _
    simp only [List.nil_append, List.cons_append, findSub_cons_eq]
    rw [h2]
    simp
  | cons c L ih =>
    have hc : c ≠ x := hL c (by simp)
    have ih2 := ih (fun d hd => hL d (by simp [hd]))
    simp only [List.cons_append, findSub_cons_eq]
    rw [isPrefixOf_cons_ne x c p _ hc]
    rw [List.append_assoc] at ih2
    simp only [List.cons_append] at ih2
    simp [ih2]

theorem findSub_ddd_dd (d : Char) : findSub [d, d, d] [d, d] = none := by
  simp [findSub, List.isPrefixOf]

theorem findSub_ddd_d (d : Char) : findSub [d, d, d] [d] = none := by
  simp [findSub, List.isPrefixOf]

theorem findSub_dd_d (d : Char) : findSub [d, d] [d] = none := by
  simp [findSub, List.isPrefixOf]

theorem noTriple_in_double (d : Char) (u : List Char) (hne : u ≠ [])
    (hu : ∀ c ∈ u, c ≠ d) :
    findSub [d, d, d] ([d, d] ++ u ++ [d, d]) = none := by
  obtain ⟨c, t, rfl⟩ : ∃ c t, u = c :: t := by
    cases u with
    | nil => exact absurd rfl hne
    | cons c t => exact ⟨c, t, rfl⟩
  have hc : (d == c) = false := beq_eq_false_iff_ne.mpr (Ne.symm (hu c (by simp)))
  have hrest : findSub [d, d, d] ((c :: t) ++ [d, d]) = none :=
    findSub_append_none d [d, d] (c :: t) [d, d] hu (findSub_ddd_dd d)
  simp only [List.cons_append, List.nil_append] at hrest ⊢
  rw [findSub_cons_eq, findSub_cons_eq]
  simp [List.isPrefixOf, hc, hrest]

theorem noTriple_in_single (d : Char) (u : List Char) (hne : u ≠ [])
    (hu : ∀ c ∈ u, c ≠ d) :
    findSub [d, d, d] ([d] ++ u ++ [d]) = none := by
  obtain ⟨c, t, rfl⟩ : ∃ c t, u = c :: t := by
    cases u with
    | nil => exact absurd rfl hne
    | cons c t => exact ⟨c, t, rfl⟩
  have hc : (d == c) = false := beq_eq_false_iff_ne.mpr (Ne.symm (hu c (by simp)))
  have hrest : findSub [d, d, d] ((c :: t) ++ [d]) = none :=
    findSub_append_none d [d, d] (c :: t) [d] hu (findSub_ddd_d d)
  simp only [List.cons_append, List.nil_append] at hrest ⊢
  rw [findSub_cons_eq]
  simp [List.isPrefixOf, hc, hrest]

theorem noDouble_in_single (d : Char) (u : List Char) (hne : u ≠ [])
    (hu : ∀ c ∈ u, c ≠ d) :
    findSub [d, d] ([d] ++ u ++ [d]) = none := by
  obtain ⟨c, t, rfl⟩ : ∃ c t, u = c :: t := by
    cases u with
    | nil => exact absurd rfl hne
    | cons c t => exact ⟨c, t, rfl⟩
  have hc : (d == c) = false := beq_eq_false_iff_ne.mpr (Ne.symm (hu c (by simp)))
  have hrest : findSub [d, d] ((c :: t) ++ [d]) = none :=
    findSub_append_none d [d] (c :: t) [d] hu (findSub_dd_d d)
  simp only [List.cons_append, List.nil_append] at hrest ⊢
  rw [findSub_cons_eq]
  simp [List.isPrefixOf, hc, hrest]

/-! ### findClose and replacePair lemmas -/

theorem findClose_cons_eq (D : List Char) (c : Char) (rest : List Char) :
    findClose D (c :: rest) =
      if lineTerm c then none
      else if D.isPrefixOf rest then some ([c], rest.drop D.length)
      else
        match findClose D rest with
        | some (content, r) => some (c :: content, r)
        | none => none := rfl

theorem findClose_boundary (d0 : Char) (D R : List Char) :
    ∀ (inner : List Char), inner ≠ [] →
      (∀ c ∈ inner, lineTerm c = false ∧ c ≠ d0) →
      findClose (d0 :: D) (inner ++ (d0 :: D) ++ R) = some (inner, R) := by
  intro inner
  induction inner with
  | nil => intro h; exact absurd rfl h
  | cons x t ih =>
    intro _ hplain
    have hx : lineTerm x = false := (hplain x (by simp)).1
    cases t with
    | nil =>
      have hpre : (d0 :: D).isPrefixOf (d0 :: (D ++ R)) = true := by
        rw [← List.cons_append]; exact isPrefixOf_append_self _ _
      have hdrop : List.drop (d0 :: D).length (d0 :: (D ++ R)) = R := by
        rw [← List.cons_append]; exact List.drop_left _ _
      simp only [List.cons_append, List.nil_append, findClose_cons_eq, hx]
      rw [hpre, hdrop]
      simp
    | cons y t2 =>
      have hy : y ≠ d0 := (hplain y (by simp)).2
      have ih2 := ih (by simp) (fun c hc => hplain c (by simp [hc]))
      simp only [List.cons_append, findClose_cons_eq, hx] at ih2 ⊢
      rw [isPrefixOf_cons_ne d0 y D _ hy]
      simp only [Bool.false_eq_true, if_false]
      rw [ih2]

theorem replacePairF_nil (D : List Char) (fuel : Nat) : replacePairF D fuel [] = [] := by
  cases fuel <;> rfl

theorem replacePairF_cons_eq (D : List Char) (fuel : Nat) (c : Char) (rest : List Char) :
    replacePairF D (fuel + 1) (c :: rest) =
      if D.isPrefixOf (c :: rest) then
        match findClose D ((c :: rest).drop D.length) with
        | some (content, r) => content ++ replacePairF D fuel r
        | none => c :: replacePairF D fuel rest
      else c :: replacePairF D fuel rest := rfl

theorem replacePairF_findSub_none (D : List Char) :
    ∀ (fuel : Nat) (s : List Char), findSub D s = none → replacePairF D fuel s = s := by
  intro fuel
  induction fuel with
  | zero => intro s _; cases s <;> rfl
  | succ fuel ih =>
    intro s hs
    cases s with
    | nil => rfl
    | cons c rest =>
      rw [findSub_cons_eq] at hs
      cases hp : D.isPrefixOf (c :: rest) with
      | true => rw [hp] at hs; simp at hs
      | false =>
        rw [hp] at hs
        simp at hs
        rw [replacePairF_cons_eq, hp]
        simp [ih rest hs]

theorem replacePair_findSub_none (D : List Char) (s : List Char)
    (h : findSub D s = none) : replacePair D s = s :=
  replacePairF_findSub_none D s.length s h

theorem replacePair_all_ne (d0 : Char) (D : List Char) (s : List Char)
    (h : ∀ c ∈ s, c ≠ d0) : replacePair (d0 :: D) s = s :=
  replacePair_findSub_none (d0 :: D) s (findSub_all_ne d0 D s h)

theorem replacePair_strip (d0 : Char) (D : List Char) (inner : List Char)
    (hne : inner ≠ []) (hplain : ∀ c ∈ inner, lineTerm c = false ∧ c ≠ d0) :
    replacePair (d0 :: D) ((d0 :: D) ++ inner ++ (d0 :: D)) = inner := by
  have hclose : findClose (d0 :: D) (inner ++ (d0 :: D)) = some (inner, []) := by
    have := findClose_boundary d0 D [] inner hne hplain
    simpa using this
  have hpre : (d0 :: D).isPrefixOf ((d0 :: D) ++ (inner ++ (d0 :: D))) = true :=
    isPrefixOf_append_self _ _
  have hdrop : ((d0 :: D) ++ (inner ++ (d0 :: D))).drop (d0 :: D).length = inner ++ (d0 :: D) :=
    List.drop_left _ _
  unfold replacePair
  have hlen : ((d0 :: D) ++ inner ++ (d0 :: D)).length =
      ((D ++ inner ++ (d0 :: D)).length) + 1 := by simp
  rw [List.append_assoc] at hlen ⊢
  rw [hlen]
  show replacePairF (d0 :: D) _ ((d0 :: D) ++ (inner ++ (d0 :: D))) = inner
  rw [show (d0 :: D) ++ (inner ++ (d0 :: D)) = d0 :: (D ++ (inner ++ (d0 :: D))) from rfl]
  rw [replacePairF_cons_eq]
  rw [show d0 :: (D ++ (inner ++ (d0 :: D))) = (d0 :: D) ++ (inner ++ (d0 :: D)) from rfl]
  rw [hpre, hdrop, hclose]
  simp [replacePairF_nil]

/-! ### Bracket pass lemmas -/

theorem matchBracket_true_cons2 (c1 c2 : Char) (t : List Char) :
    matchBracket true (c1 :: c2 :: t) =
      if c1 = '!' && c2 = '[' then bracketCore t else none := rfl

theorem matchBracket_false_cons (c1 : Char) (t : List Char) :
    matchBracket false (c1 :: t) =
      if c1 = '[' then bracketCore t else none := rfl

theorem replaceBracketF_nil (bang : Bool) (fuel : Nat) : replaceBracketF bang fuel [] = [] := by
  cases fuel <;> rfl

theorem replaceBracketF_cons_eq (bang : Bool) (fuel : Nat) (c : Char) (rest : List Char) :
    replaceBracketF bang (fuel + 1) (c :: rest) =
      match matchBracket bang (c :: rest) with
      | some (alt, r) => alt ++ replaceBracketF bang fuel r
      | none => c :: replaceBracketF bang fuel rest := rfl

theorem replaceBracketF_id_true (fuel : Nat) :
    ∀ (s : List Char), (∀ c ∈ s, c ≠ '!') → replaceBracketF true fuel s = s := by
  induction fuel with
  | zero => intro s _; cases s <;> rfl
  | succ fuel ih =>
    intro s hs
    cases s with
    | nil => rfl
    | cons c rest =>
      have hc : c ≠ '!' := hs c (by simp)
      have hmb : matchBracket true (c :: rest) = none := by
        cases rest with
        | nil => rfl
        | cons c2 t =>
          rw [matchBracket_true_cons2]
          simp [hc]
      rw [replaceBracketF_cons_eq, hmb]
      simp [ih rest (fun d hd => hs d (by simp [hd]))]

theorem replaceBracketF_id_false (fuel : Nat) :
    ∀ (s : List Char), (∀ c ∈ s, c ≠ '[') → replaceBracketF false fuel s = s := by
  induction fuel with
  | zero => intro s _; cases s <;> rfl
  | succ fuel ih =>
    intro s hs
    cases s with
    | nil => rfl
    | cons c rest =>
      have hc : c ≠ '[' := hs c (by simp)
      have hmb : matchBracket false (c :: rest) = none := by
        rw [matchBracket_false_cons]
        simp [hc]
      rw [replaceBracketF_cons_eq, hmb]
      simp [ih rest (fun d hd => hs d (by simp [hd]))]

theorem replaceBracket_id_true (s : List Char) (h : ∀ c ∈ s, c ≠ '!') :
    replaceBracket true s = s :=
  replaceBracketF_id_true s.length s h

theorem replaceBracket_id_false (s : List Char) (h : ∀ c ∈ s, c ≠ '[') :
    replaceBracket false s = s :=
  replaceBracketF_id_false s.length s h

theorem bracketCore_boundary (alt url R : List Char)
    (halt : ∀ c ∈ alt, c ≠ ']') (hurl : ∀ c ∈ url, c ≠ ')') :
    bracketCore (alt ++ ']' :: '(' :: (url ++ ')' :: R)) = some (alt, R) := by
  have halt2 : ∀ c ∈ alt, (c != ']') = true := by
    intro c hc; simpa using halt c hc
  have hurl2 : ∀ c ∈ url, (c != ')') = true := by
    intro c hc; simpa using hurl c hc
  have htake : (alt ++ ']' :: '(' :: (url ++ ')' :: R)).takeWhile (fun c => c != ']') = alt := by
    rw [takeWhile_append_of_all _ _ halt2]
    simp
  have hdrop : (alt ++ ']' :: '(' :: (url ++ ')' :: R)).dropWhile (fun c => c != ']') =
      ']' :: '(' :: (url ++ ')' :: R) := by
    rw [dropWhile_append_of_all _ _ halt2]
    simp
  have hdrop2 : (url ++ ')' :: R).dropWhile (fun c => c != ')') = ')' :: R := by
    rw [dropWhile_append_of_all _ _ hurl2]
    simp
  unfold bracketCore
  rw [htake, hdrop]
  simp only [hdrop2]

theorem replaceBracket_image (alt url : List Char)
    (halt : ∀ c ∈ alt, c ≠ ']') (hurl : ∀ c ∈ url, c ≠ ')') :
    replaceBracket true ('!' :: '[' :: (alt ++ ']' :: '(' :: (url ++ [')']))) = alt := by
  have hcore : bracketCore (alt ++ ']' :: '(' :: (url ++ [')'])) = some (alt, []) := by
    have := bracketCore_boundary alt url [] halt hurl
    simpa using this
  have hmb : matchBracket true ('!' :: '[' :: (alt ++ ']' :: '(' :: (url ++ [')']))) =
      some (alt, []) := by
    rw [matchBracket_true_cons2]
    simp [hcore]
  unfold replaceBracket
  rw [show ('!' :: '[' :: (alt ++ ']' :: '(' :: (url ++ [')']))).length =
    ('[' :: (alt ++ ']' :: '(' :: (url ++ [')']))).length + 1 from rfl]
  rw [replaceBracketF_cons_eq, hmb]
  simp [replaceBracketF_nil]

theorem replaceBracket_link (alt url : List Char)
    (halt : ∀ c ∈ alt, c ≠ ']') (hurl : ∀ c ∈ url, c ≠ ')') :
    replaceBracket false ('[' :: (alt ++ ']' :: '(' :: (url ++ [')']))) = alt := by
  have hcore : bracketCore (alt ++ ']' :: '(' :: (url ++ [')'])) = some (alt, []) := by
    have := bracketCore_boundary alt url [] halt hurl
    simpa using this
  have hmb : matchBracket false ('[' :: (alt ++ ']' :: '(' :: (url ++ [')']))) =
      some (alt, []) := by
    rw [matchBracket_false_cons]
    simp [hcore]
  unfold replaceBracket
  rw [show ('[' :: (alt ++ ']' :: '(' :: (url ++ [')']))).length =
    (alt ++ ']' :: '(' :: (url ++ [')'])).length + 1 from rfl]
  rw [replaceBracketF_cons_eq, hmb]
  simp [replaceBracketF_nil]

/-! ### Identity of stripMarkdown on clean strings -/

theorem existsSuffix_cons_eq (f : List Char → Bool) (c : Char) (rest : List Char) :
    existsSuffix f (c :: rest) = (f (c :: rest) || existsSuffix f rest) := rfl

theorem replacePairF_id_of_clean (D : List Char) (fuel : Nat) :
    ∀ (s : List Char), existsSuffix (pairMatchAt D) s = false →
      replacePairF D fuel s = s := by
  induction fuel with
  | zero => intro s _; cases s <;> rfl
  | succ fuel ih =>
    intro s hs
    cases s with
    | nil => rfl
    | cons c rest =>
      rw [existsSuffix_cons_eq] at hs
      have h1 : pairMatchAt D (c :: rest) = false := by
        cases h : pairMatchAt D (c :: rest) with
        | true => rw [h] at hs; simp at hs
        | false => rfl
      have h2 : existsSuffix (pairMatchAt D) rest = false := by
        cases h : existsSuffix (pairMatchAt D) rest with
        | true => rw [h] at hs; simp at hs
        | false => rfl
      rw [replacePairF_cons_eq]
      unfold pairMatchAt at h1
      cases hp : D.isPrefixOf (c :: rest) with
      | false => simp [ih rest h2]
      | true =>
        rw [hp] at h1
        simp only [Bool.true_and] at h1
        cases hf : findClose D ((c :: rest).drop D.length) with
        | some g => rw [hf] at h1; simp at h1
        | none => simp [hf, ih rest h2]

theorem replaceBracketF_id_of_clean (bang : Bool) (fuel : Nat) :
    ∀ (s : List Char), existsSuffix (fun t => (matchBracket bang t).isSome) s = false →
      replaceBracketF bang fuel s = s := by
  induction fuel with
  | zero => intro s _; cases s <;> rfl
  | succ fuel ih =>
    intro s hs
    cases s with
    | nil => rfl
    | cons c rest =>
      rw [existsSuffix_cons_eq] at hs
      have h1 : (matchBracket bang (c :: rest)).isSome = false := by
        cases h : (matchBracket bang (c :: rest)).isSome with
        | true => rw [h] at hs; simp at hs
        | false => rfl
      have h2 : existsSuffix (fun t => (matchBracket bang t).isSome) rest = false := by
        cases h : existsSuffix (fun t => (matchBracket bang t).isSome) rest with
        | true => rw [h] at hs; simp at hs
        | false => rfl
      have hmb : matchBracket bang (c :: rest) = none := by
        cases h : matchBracket bang (c :: rest) with
        | some g => rw [h] at h1; simp at h1
        | none => rfl
      rw [replaceBracketF_cons_eq, hmb]
      simp [ih rest h2]

theorem stripMarkdownL_id_of_clean (s : List Char) (h : isClean s = true) :
    stripMarkdownL s = s := by
  unfold isClean at h
  simp only [Bool.and_eq_true, Bool.not_eq_true'] at h
  obtain ⟨⟨⟨⟨⟨⟨⟨⟨⟨h1, h2⟩, h3⟩, h4⟩, h5⟩, h6⟩, h7⟩, h8⟩, h9⟩, h10⟩ := h
  unfold stripMarkdownL replacePair replaceBracket
  rw [replaceBracketF_id_of_clean true _ s h1]
  rw [replaceBracketF_id_of_clean false _ s h2]
  rw [replacePairF_id_of_clean _ _ s h3]
  rw [replacePairF_id_of_clean _ _ s h4]
  rw [replacePairF_id_of_clean _ _ s h5]
  rw [replacePairF_id_of_clean _ _ s h6]
  rw [replacePairF_id_of_clean _ _ s h7]
  rw [replacePairF_id_of_clean _ _ s h8]
  rw [replacePairF_id_of_clean _ _ s h9]
  rw [replacePairF_id_of_clean _ _ s h10]

/-! ### Membership lemmas: the stripper only emits characters of its input -/

theorem findClose_mem (D : List Char) :
    ∀ (t content r : List Char), findClose D t = some (content, r) →
      ∀ c, (c ∈ content → c ∈ t) ∧ (c ∈ r → c ∈ t) := by
  intro t
  induction t with
  | nil => intro content r h; simp [findClose] at h
  | cons x rest ih =>
    intro content r h c
    rw [findClose_cons_eq] at h
    cases hlt : lineTerm x with
    | true => rw [hlt] at h; simp at h
    | false =>
      rw [hlt] at h
      simp only [Bool.false_eq_true, if_false] at h
      cases hp : D.isPrefixOf rest with
      | true =>
        rw [hp] at h
        simp only [if_true, Option.some_inj] at h
        obtain ⟨hc, hr⟩ := Prod.mk.injEq .. ▸ h
        constructor
        · intro hmem
          rw [← hc] at hmem
          simp at hmem
          simp [hmem]
        · intro hmem
          rw [← hr] at hmem
          have : c ∈ rest := List.mem_of_mem_drop hmem
          simp [this]
      | false =>
        rw [hp] at h
        simp only [Bool.false_eq_true, if_false] at h
        cases hf : findClose D rest with
        | none => rw [hf] at h; simp at h
        | some g =>
          obtain ⟨content2, r2⟩ := g
          rw [hf] at h
          simp only [Option.some_inj] at h
          obtain ⟨hc, hr⟩ := Prod.mk.injEq .. ▸ h
          have ihg := ih content2 r2 hf c
          constructor
          · intro hmem
            rw [← hc] at hmem
            rcases List.mem_cons.mp hmem with h1 | h1
            · simp [h1]
            · have := ihg.1 h1
              simp [this]
          · intro hmem
            rw [← hr] at hmem
            have := ihg.2 hmem
            simp [this]

theorem replacePairF_zero (D : List Char) (s : List Char) : replacePairF D 0 s = s := by
  cases s <;> rfl

theorem replaceBracketF_zero (bang : Bool) (s : List Char) : replaceBracketF bang 0 s = s := by
  cases s <;> rfl

theorem replacePairF_mem (D : List Char) (fuel : Nat) :
    ∀ (s : List Char) (c : Char), c ∈ replacePairF D fuel s → c ∈ s := by
  induction fuel with
  | zero => intro s c h; rwa [replacePairF_zero] at h
  | succ fuel ih =>
    intro s c h
    cases s with
    | nil => rwa [replacePairF_nil] at h
    | cons x rest =>
      rw [replacePairF_cons_eq] at h
      cases hp : D.isPrefixOf (x :: rest) with
      | false =>
        rw [hp] at h
        simp only [Bool.false_eq_true, if_false, List.mem_cons] at h
        rcases h with h | h
        · simp [h]
        · have := ih rest c h
          simp [this]
      | true =>
        rw [hp] at h
        simp only [if_true] at h
        cases hf : findClose D ((x :: rest).drop D.length) with
        | none =>
          rw [hf] at h
          simp only [List.mem_cons] at h
          rcases h with h | h
          · simp [h]
          · have := ih rest c h
            simp [this]
        | some g =>
          obtain ⟨content, r⟩ := g
          rw [hf] at h
          simp only [List.mem_append] at h
          have hmemdrop : ∀ d, d ∈ (x :: rest).drop D.length → d ∈ x :: rest := by
            intro d hd; exact List.mem_of_mem_drop hd
          rcases h with h | h
          · exact hmemdrop c ((findClose_mem D _ content r hf c).1 h)
          · exact hmemdrop c ((findClose_mem D _ content r hf c).2 (ih r c h))

theorem replacePair_mem (D : List Char) (s : List Char) (c : Char)
    (h : c ∈ replacePair D s) : c ∈ s :=
  replacePairF_mem D s.length s c h

theorem bracketCore_mem (t alt r : List Char) (h : bracketCore t = some (alt, r)) :
    ∀ c, (c ∈ alt → c ∈ t) ∧ (c ∈ r → c ∈ t) := by
  intro c
  unfold bracketCore at h
  split at h
  case h_2 => simp at h
  case h_1 t2 hd =>
    split at h
    case h_2 => simp at h
    case h_1 r3 hd2 =>
      simp only [Option.some_inj, Prod.mk.injEq] at h
      obtain ⟨halt, hr⟩ := h
      constructor
      · intro hmem
        rw [← halt] at hmem
        exact List.Sublist.mem hmem (List.takeWhile_sublist _)
      · intro hmem
        rw [← hr] at hmem
        have h1 : c ∈ t2.dropWhile (fun c => c != ')') := by
          rw [hd2]; simp [hmem]
        have h2 : c ∈ t2 := List.Sublist.mem h1 (List.dropWhile_sublist _)
        have h3 : c ∈ t.dropWhile (fun c => c != ']') := by
          rw [hd]; simp [h2]
        exact List.Sublist.mem h3 (List.dropWhile_sublist _)

theorem matchBracket_mem (bang : Bool) (s alt r : List Char)
    (h : matchBracket bang s = some (alt, r)) :
    ∀ c, (c ∈ alt → c ∈ s) ∧ (c ∈ r → c ∈ s) := by
  intro c
  unfold matchBracket at h
  split at h
  · split at h
    case h_2 => simp at h
    case h_1 c1 c2 t =>
      split at h
      · have := bracketCore_mem t alt r h c
        exact ⟨fun hm => by simp [this.1 hm], fun hm => by simp [this.2 hm]⟩
      · simp at h
  · split at h
    case h_2 => simp at h
    case h_1 c1 t =>
      split at h
      · have := bracketCore_mem t alt r h c
        exact ⟨fun hm => by simp [this.1 hm], fun hm => by simp [this.2 hm]⟩
      · simp at h

theorem replaceBracketF_mem (bang : Bool) (fuel : Nat) :
    ∀ (s : List Char) (c : Char), c ∈ replaceBracketF bang fuel s → c ∈ s := by
  induction fuel with
  | zero => intro s c h; rwa [replaceBracketF_zero] at h
  | succ fuel ih =>
    intro s c h
    cases s with
    | nil => rwa [replaceBracketF_nil] at h
    | cons x rest =>
      rw [replaceBracketF_cons_eq] at h
      cases hm : matchBracket bang (x :: rest) with
      | none =>
        rw [hm] at h
        simp only [List.mem_cons] at h
        rcases h with h | h
        · simp [h]
        · have := ih rest c h
          simp [this]
      | some g =>
        obtain ⟨alt, r⟩ := g
        rw [hm] at h
        simp only [List.mem_append] at h
        rcases h with h | h
        · exact (matchBracket_mem bang _ alt r hm c).1 h
        · exact (matchBracket_mem bang _ alt r hm c).2 (ih r c h)

theorem replaceBracket_mem (bang : Bool) (s : List Char) (c : Char)
    (h : c ∈ replaceBracket bang s) : c ∈ s :=
  replaceBracketF_mem bang s.length s c h

theorem stripMarkdownL_mem (s : List Char) (c : Char)
    (h : c ∈ stripMarkdownL s) : c ∈ s := by
  unfold stripMarkdownL at h
  exact replaceBracketF_mem _ _ _ c
    (replaceBracketF_mem _ _ _ c
      (replacePairF_mem _ _ _ c
        (replacePairF_mem _ _ _ c
          (replacePairF_mem _ _ _ c
            (replacePairF_mem _ _ _ c
              (replacePairF_mem _ _ _ c
                (replacePairF_mem _ _ _ c
                  (replacePairF_mem _ _ _ c
                    (replacePairF_mem _ _ _ c h)))))))))

/-! ### Body-fallback equals its specification -/

theorem meaningfulLine_eq_spec : meaningfulLine = specMeaningful := by
  funext l
  cases l with
  | nil => rfl
  | cons c t =>
    unfold meaningfulLine specMeaningful
    by_cases hh : c = '#'
    · subst hh
      simp [List.isPrefixOf]
    · have e1 : ('#' == c) = false := beq_eq_false_iff_ne.mpr (Ne.symm hh)
      have e2 : (some c == some '#') = (c == '#') := rfl
      have e3 : (c == '#') = false := beq_eq_false_iff_ne.mpr hh
      simp [List.isPrefixOf, e1, e2, e3]

theorem firstSentence_cons_eq (c : Char) (rest : List Char) :
    firstSentence (c :: rest) =
      if c = '.' ∨ c = '!' ∨ c = '?' then some [c]
      else if c = '\n' then none
      else (firstSentence rest).map (c :: ·) := rfl

theorem specSentence_cons_eq (c : Char) (rest : List Char) :
    specSentence (c :: rest) =
      if c = '.' ∨ c = '!' ∨ c = '?' then [c] else c :: specSentence rest := rfl

theorem firstSentence_getD (l : List Char) (h : '\n' ∉ l) :
    (firstSentence l).getD l = specSentence l := by
  induction l with
  | nil => rfl
  | cons c rest ih =>
    have hc : c ≠ '\n' := by
      intro hc
      exact h (by simp [hc])
    have hrest : '\n' ∉ rest := fun hm => h (by simp [hm])
    have ih2 := ih hrest
    by_cases hterm : c = '.' ∨ c = '!' ∨ c = '?'
    · rw [firstSentence_cons_eq, specSentence_cons_eq, if_pos hterm, if_pos hterm]
      rfl
    · rw [firstSentence_cons_eq, specSentence_cons_eq, if_neg hterm, if_neg hterm,
        if_neg hc]
      cases hfs : firstSentence rest with
      | none =>
        rw [hfs] at ih2
        simp only [Option.getD_none] at ih2
        simp only [Option.map_none', Option.getD_none]
        rw [← ih2]
      | some s =>
        rw [hfs] at ih2
        simp only [Option.getD_some] at ih2
        simp only [Option.map_some', Option.getD_some]
        rw [ih2]

theorem splitOnNl_ne_nil (b : List Char) : splitOnNl b ≠ [] := by
  cases b with
  | nil => simp [splitOnNl]
  | cons c rest =>
    unfold splitOnNl
    by_cases hc : c = '\n'
    · simp [hc]
    · rw [if_neg hc]
      cases h : splitOnNl rest <;> simp

theorem splitOnNl_no_newline (b : List Char) :
    ∀ l ∈ splitOnNl b, '\n' ∉ l := by
  induction b with
  | nil =>
    intro l hl
    simp [splitOnNl] at hl
    simp [hl]
  | cons c rest ih =>
    intro l hl
    unfold splitOnNl at hl
    by_cases hc : c = '\n'
    · rw [if_pos hc] at hl
      rcases List.mem_cons.mp hl with h | h
      · simp [h]
      · exact ih l h
    · rw [if_neg hc] at hl
      cases hs : splitOnNl rest with
      | nil => exact absurd hs (splitOnNl_ne_nil rest)
      | cons l0 ls =>
        rw [hs] at hl
        rcases List.mem_cons.mp hl with h | h
        · subst h
          intro hmem
          rcases List.mem_cons.mp hmem with h2 | h2
          · exact hc h2.symm
          · exact ih l0 (by simp [hs]) h2
        · exact ih l (by simp [hs, h])

theorem mem_jsTrim (l : List Char) (c : Char) (h : c ∈ jsTrim l) : c ∈ l := by
  unfold jsTrim at h
  rw [List.mem_reverse] at h
  have h2 := mem_of_mem_dropWhile h
  rw [List.mem_reverse] at h2
  exact mem_of_mem_dropWhile h2

theorem bodyDescription_eq_spec (b : List Char) :
    bodyDescription b = specBodyDescription b := by
  unfold bodyDescription specBodyDescription
  rw [meaningfulLine_eq_spec]
  cases hfind : ((splitOnNl b).map jsTrim).find? specMeaningful with
  | none => rfl
  | some line =>
    have hmem : line ∈ (splitOnNl b).map jsTrim := List.mem_of_find?_eq_some hfind
    obtain ⟨l0, hl0, rfl⟩ := List.mem_map.mp hmem
    have hnl0 : '\n' ∉ l0 := splitOnNl_no_newline b l0 hl0
    have hnline : '\n' ∉ jsTrim l0 := fun hm => hnl0 (mem_jsTrim l0 '\n' hm)
    have hnstrip : '\n' ∉ stripMarkdownL (jsTrim l0) := fun hm =>
      hnline (stripMarkdownL_mem _ '\n' hm)
    have hgd := firstSentence_getD (stripMarkdownL (jsTrim l0)) hnstrip
    cases hfs : firstSentence (stripMarkdownL (jsTrim l0)) with
    | none =>
      rw [hfs] at hgd
      simp only [Option.getD_none] at hgd
      dsimp only
      rw [hfs]
      exact congrArg some hgd
    | some s =>
      rw [hfs] at hgd
      simp only [Option.getD_some] at hgd
      dsimp only
      rw [hfs]
      exact congrArg some hgd

/-! ### The frontmatter description path on a general schema -/

theorem jsSpace_of_lineTerm (c : Char) (h : lineTerm c = true) : jsSpace c = true := by
  unfold jsSpace
  rw [h]
  rfl

theorem ne_nl_of_lineTerm_false (c : Char) (h : lineTerm c = false) : c ≠ '\n' := by
  intro heq
  subst heq
  simp [lineTerm] at h

theorem fmTry_succ_eq (rest : List Char) (k : Nat) :
    fmTry rest (k + 1) =
      match fmAt rest (k + 1) with
      | some r => some r
      | none => fmTry rest k := rfl

theorem fmTry_one_eq (rest : List Char) :
    fmTry rest 1 =
      match fmAt rest 1 with
      | some r => some r
      | none => fmTry rest 0 := rfl

theorem fmTry_zero_eq (rest : List Char) : fmTry rest 0 = fmAt rest 0 := rfl

theorem descLoop_succ_eq (u : List Char) (k : Nat) :
    descLoop u (k + 1) =
      match descGroup u (k + 1) with
      | some r => some r
      | none => descLoop u k := rfl

theorem descSearchF_succ_eq (fuel : Nat) (t : List Char) :
    descSearchF (fuel + 1) t =
      match descAt t with
      | some r => some r
      | none =>
        match t with
        | [] => none
        | _ :: _ => descSearchF fuel (dropLine t) := rfl

theorem jsTrim_dropWhile (d : List Char) :
    jsTrim (d.dropWhile jsSpace) = jsTrim d := by
  unfold jsTrim
  rw [List.dropWhile_idempotent]

/-- Components of the pre-description frontmatter line predicate. -/
theorem goodFmLine_props (l : List Char) (h : goodFmLine l = true) :
    l ≠ [] ∧ (∀ c ∈ l, lineTerm c = false) ∧
      (∀ c t, l = c :: t → jsSpace c = false ∧ c ≠ '-') ∧
      descKey.isPrefixOf (l ++ ['\n']) = false := by
  unfold goodFmLine at h
  simp only [Bool.and_eq_true, Bool.not_eq_true'] at h
  obtain ⟨⟨⟨h1, h2⟩, h3⟩, h4⟩ := h
  refine ⟨?_, ?_, ?_, h4⟩
  · intro heq
    subst heq
    simp at h1
  · intro c hc
    have := List.all_eq_true.mp h2 c hc
    simpa using this
  · intro c t heq
    subst heq
    have h3p : (!jsSpace c && (c != '-')) = true := h3
    simp only [Bool.and_eq_true, Bool.not_eq_true', bne_iff_ne] at h3p
    exact h3p

/-- Components of the post-description frontmatter line predicate. -/
theorem goodPostLine_props (l : List Char) (h : goodPostLine l = true) :
    l ≠ [] ∧ (∀ c ∈ l, lineTerm c = false) ∧ (∀ c t, l = c :: t → c ≠ '-') := by
  unfold goodPostLine at h
  simp only [Bool.and_eq_true, Bool.not_eq_true'] at h
  obtain ⟨⟨h1, h2⟩, h3⟩ := h
  refine ⟨?_, ?_, ?_⟩
  · intro heq
    subst heq
    simp at h1
  · intro c hc
    have := List.all_eq_true.mp h2 c hc
    simpa using this
  · intro c t heq
    subst heq
    have h3p : (c != '-') = true := h3
    simpa [bne_iff_ne] using h3p

theorem exists_cons_of_ne_nil (l : List Char) (h : l ≠ []) :
    ∃ c t, l = c :: t := by
  cases l with
  | nil => exact absurd rfl h
  | cons c t => exact ⟨c, t, rfl⟩

theorem findSub_append_some (x : Char) (p : List Char) :
    ∀ (L M : List Char) (g : Nat), (∀ c ∈ L, c ≠ x) → findSub (x :: p) M = some g →
      findSub (x :: p) (L ++ M) = some (L.length + g) := by
  intro L
  induction L with
  | nil =>
    intro M g _ hM
    simpa using hM
  | cons c L2 ih =>
    intro M g hL hM
    have hc : c ≠ x := hL c (List.mem_cons_self c L2)
    have hrest := ih M g (fun e he => hL e (List.mem_cons_of_mem c he)) hM
    rw [List.cons_append, findSub_cons_eq]
    rw [isPrefixOf_cons_ne x c p (L2 ++ M) hc]
    simp only [Bool.false_eq_true, if_false, hrest, Option.map_some', List.length_cons]
    congr 1
    omega

/-- A prefix pattern free of a character x cannot reach past an
occurrence of x: matching it against l followed by x and more also
matches it against l followed by x alone. -/
theorem isPrefixOf_stop (x : Char) :
    ∀ (pat : List Char), x ∉ pat → ∀ (l R : List Char),
      pat.isPrefixOf (l ++ x :: R) = true → pat.isPrefixOf (l ++ [x]) = true := by
  intro pat
  induction pat with
  | nil =>
    intro _ l R _
    cases l with
    | nil => rfl
    | cons c l2 => rfl
  | cons p ps ih =>
    intro hx l R h
    have hxps : x ∉ ps := fun hm => hx (List.mem_cons_of_mem p hm)
    cases l with
    | nil =>
      exfalso
      simp only [List.nil_append, List.isPrefixOf, Bool.and_eq_true, beq_iff_eq] at h
      have : x ∈ p :: ps := by
        rw [← h.1]
        exact List.mem_cons_self p ps
      exact hx this
    | cons c l2 =>
      simp only [List.cons_append, List.isPrefixOf, Bool.and_eq_true] at h ⊢
      exact ⟨h.1, ih hxps l2 R h.2⟩

theorem dropLine_cons_eq (c : Char) (rest : List Char) :
    dropLine (c :: rest) = if lineTerm c then rest else dropLine rest := rfl

theorem dropLine_append (l REST : List Char) (h : ∀ c ∈ l, lineTerm c = false) :
    dropLine (l ++ '\n' :: REST) = REST := by
  induction l with
  | nil =>
    rw [List.nil_append, dropLine_cons_eq, if_pos (by decide : lineTerm '\n' = true)]
  | cons c l2 ih =>
    have hc : lineTerm c = false := h c (List.mem_cons_self c l2)
    rw [List.cons_append, dropLine_cons_eq, hc]
    simp only [Bool.false_eq_true, if_false]
    exact ih (fun e he => h e (List.mem_cons_of_mem c he))

theorem joinLinesL_nil : joinLinesL [] = [] := rfl

theorem joinLinesL_cons (l : List Char) (r : List (List Char)) :
    joinLinesL (l :: r) = l ++ '\n' :: joinLinesL r := rfl

theorem prefixJoinL_nil : prefixJoinL [] = [] := rfl

theorem prefixJoinL_cons (l : List Char) (r : List (List Char)) :
    prefixJoinL (l :: r) = '\n' :: (l ++ prefixJoinL r) := rfl

theorem joinLinesL_length (lines : List (List Char)) :
    lines.length ≤ (joinLinesL lines).length := by
  induction lines with
  | nil => simp [joinLinesL_nil]
  | cons l r ih =>
    rw [joinLinesL_cons]
    simp only [List.length_cons, List.length_append]
    omega

/-- The head of joined frontmatter lines followed by a tail whose head
is neither whitespace nor a dash is itself neither whitespace nor a
dash. -/
theorem joinLinesL_append_head (lines : List (List Char))
    (hgood : ∀ l ∈ lines, goodFmLine l = true) (M : List Char)
    (hM : ∃ m tM, M = m :: tM ∧ jsSpace m = false ∧ m ≠ '-') :
    ∃ c t, joinLinesL lines ++ M = c :: t ∧ jsSpace c = false ∧ c ≠ '-' := by
  cases lines with
  | nil =>
    obtain ⟨m, tM, hM1, hM2, hM3⟩ := hM
    exact ⟨m, tM, by rw [joinLinesL_nil, List.nil_append, hM1], hM2, hM3⟩
  | cons l r =>
    obtain ⟨hne, _, hhead, _⟩ := goodFmLine_props l (hgood l (List.mem_cons_self l r))
    obtain ⟨c0, t0, rfl⟩ := exists_cons_of_ne_nil l hne
    obtain ⟨hws, hdash⟩ := hhead c0 t0 rfl
    refine ⟨c0, t0 ++ '\n' :: (joinLinesL r ++ M), ?_, hws, hdash⟩
    simp [joinLinesL_cons, List.cons_append, List.append_assoc]

/-- The closing delimiter search over the post-description lines: with
every line non-empty, terminator-free and not dash-initial, the
leftmost newline-dashes occurrence is exactly at the closing
delimiter. -/
theorem findSub_postJoin (RR : List Char)
    (hR : (['-', '-', '-'] : List Char).isPrefixOf RR = true) :
    ∀ (post : List (List Char)), (∀ l ∈ post, goodPostLine l = true) →
      findSub nlDashes (prefixJoinL post ++ '\n' :: RR) =
        some (prefixJoinL post).length := by
  intro post
  induction post with
  | nil =>
    intro _
    rw [prefixJoinL_nil, List.nil_append, List.length_nil]
    have hpre2 : nlDashes.isPrefixOf ('\n' :: RR) = true := by
      rw [show nlDashes = '\n' :: ['-', '-', '-'] from rfl]
      simp [List.isPrefixOf, hR]
    rw [findSub_cons_eq, hpre2]
    simp
  | cons l r ih =>
    intro hgood
    obtain ⟨hne, hlt, hhead⟩ := goodPostLine_props l (hgood l (List.mem_cons_self l r))
    obtain ⟨c0, t0, rfl⟩ := exists_cons_of_ne_nil l hne
    have hc0 : c0 ≠ '-' := hhead c0 t0 rfl
    have hrec := ih (fun l2 hl2 => hgood l2 (List.mem_cons_of_mem _ hl2))
    have hLne : ∀ c1 ∈ c0 :: t0, c1 ≠ '\n' := fun c1 hc1 =>
      ne_nl_of_lineTerm_false c1 (hlt c1 hc1)
    have hshape : prefixJoinL ((c0 :: t0) :: r) ++ '\n' :: RR =
        '\n' :: ((c0 :: t0) ++ (prefixJoinL r ++ '\n' :: RR)) := by
      rw [prefixJoinL_cons, List.cons_append, List.append_assoc]
    have hpre2 : nlDashes.isPrefixOf
        ('\n' :: ((c0 :: t0) ++ (prefixJoinL r ++ '\n' :: RR))) = false := by
      rw [List.cons_append]
      rw [show nlDashes = '\n' :: ['-', '-', '-'] from rfl]
      simp [List.isPrefixOf, beq_eq_false_iff_ne.mpr (Ne.symm hc0)]
    rw [hshape, findSub_cons_eq, hpre2]
    simp only [Bool.false_eq_true, if_false]
    have hinner : findSub ('\n' :: ['-', '-', '-']) (prefixJoinL r ++ '\n' :: RR) =
        some (prefixJoinL r).length := hrec
    have hmid := findSub_append_some '\n' ['-', '-', '-'] (c0 :: t0) _ _ hLne hinner
    rw [show nlDashes = '\n' :: ['-', '-', '-'] from rfl, hmid]
    simp only [Option.map_some', Option.some_inj, prefixJoinL_cons]
    simp only [List.length_cons, List.length_append]

/-- The closing delimiter search skips the pre-description lines: with
every line well formed and the continuation holding its leftmost
newline-dashes occurrence at position g, the search over the joined
lines and the continuation lands at the joined length plus g. -/
theorem findSub_preJoin :
    ∀ (lines : List (List Char)), (∀ l ∈ lines, goodFmLine l = true) →
      ∀ (M : List Char) (g : Nat),
        (∃ m tM, M = m :: tM ∧ jsSpace m = false ∧ m ≠ '-') →
        findSub nlDashes M = some g →
        findSub nlDashes (joinLinesL lines ++ M) =
          some ((joinLinesL lines).length + g) := by
  intro lines
  induction lines with
  | nil =>
    intro _ M g _ hfind
    rw [joinLinesL_nil, List.nil_append, List.length_nil]
    simpa using hfind
  | cons l r ih =>
    intro hgood M g hMhead hfind
    obtain ⟨hne, hlt, _, _⟩ := goodFmLine_props l (hgood l (List.mem_cons_self l r))
    obtain ⟨c0, t0, rfl⟩ := exists_cons_of_ne_nil l hne
    have hLne : ∀ c1 ∈ c0 :: t0, c1 ≠ '\n' := fun c1 hc1 =>
      ne_nl_of_lineTerm_false c1 (hlt c1 hc1)
    obtain ⟨ch, th, hJM, hchs, hchd⟩ := joinLinesL_append_head r
      (fun l2 hl2 => hgood l2 (List.mem_cons_of_mem _ hl2)) M hMhead
    have hshape : joinLinesL ((c0 :: t0) :: r) ++ M =
        (c0 :: t0) ++ ('\n' :: (joinLinesL r ++ M)) := by
      simp [joinLinesL_cons, List.cons_append, List.append_assoc]
    have hpre2 : nlDashes.isPrefixOf ('\n' :: (joinLinesL r ++ M)) = false := by
      rw [hJM]
      rw [show nlDashes = '\n' :: ['-', '-', '-'] from rfl]
      simp [List.isPrefixOf, beq_eq_false_iff_ne.mpr (Ne.symm hchd)]
    have hrec := ih (fun l2 hl2 => hgood l2 (List.mem_cons_of_mem _ hl2)) M g hMhead hfind
    have hinner : findSub nlDashes ('\n' :: (joinLinesL r ++ M)) =
        some ((joinLinesL r).length + g + 1) := by
      rw [findSub_cons_eq, hpre2]
      simp only [Bool.false_eq_true, if_false]
      rw [hrec]
      simp only [Option.map_some']
    have hinner2 : findSub ('\n' :: ['-', '-', '-'])
        ('\n' :: (joinLinesL r ++ M)) = some ((joinLinesL r).length + g + 1) := hinner
    have houter := findSub_append_some '\n' ['-', '-', '-'] (c0 :: t0) _ _ hLne hinner2
    rw [hshape]
    rw [show nlDashes = '\n' :: ['-', '-', '-'] from rfl, houter]
    congr 1
    rw [joinLinesL_cons]
    simp only [List.length_append, List.length_cons]
    omega

theorem takeWhile_append_stop {p : Char → Bool} (A B : List Char)
    (h : A.dropWhile p ≠ []) : (A ++ B).takeWhile p = A.takeWhile p := by
  induction A with
  | nil => simp at h
  | cons a A2 ih =>
    cases hp : p a with
    | true =>
      have h2 : A2.dropWhile p ≠ [] := by
        rwa [List.dropWhile_cons, if_pos hp] at h
      rw [List.cons_append, List.takeWhile_cons, List.takeWhile_cons, if_pos hp,
        if_pos hp, ih h2]
    | false =>
      rw [List.cons_append, List.takeWhile_cons, List.takeWhile_cons, hp]
      simp only [Bool.false_eq_true, if_false]

theorem dropWhile_append_stop {p : Char → Bool} (A B : List Char)
    (h : A.dropWhile p ≠ []) : (A ++ B).dropWhile p = A.dropWhile p ++ B := by
  induction A with
  | nil => simp at h
  | cons a A2 ih =>
    cases hp : p a with
    | true =>
      have h2 : A2.dropWhile p ≠ [] := by
        rwa [List.dropWhile_cons, if_pos hp] at h
      rw [List.cons_append, List.dropWhile_cons, List.dropWhile_cons, if_pos hp,
        if_pos hp, ih h2]
    | false =>
      rw [List.cons_append, List.dropWhile_cons, List.dropWhile_cons, hp]
      simp only [Bool.false_eq_true, if_false, List.cons_append]

/-- The description regex at the start of its own line: the key, one
space, a terminator-free value with some non-whitespace character, and
a continuation that is empty or starts at a newline, capture the value
with its leading whitespace dropped. -/
theorem descAt_schema (d P : List Char)
    (hd1 : ∀ c ∈ d, lineTerm c = false)
    (hd2 : ∃ c ∈ d, jsSpace c = false)
    (hP : P = [] ∨ ∃ t2, P = '\n' :: t2) :
    descAt (descKey ++ ' ' :: (d ++ P)) = some (d.dropWhile jsSpace) := by
  obtain ⟨c0, t0, hv⟩ : ∃ c0 t0, d.dropWhile jsSpace = c0 :: t0 := by
    cases hcase : d.dropWhile jsSpace with
    | nil =>
      obtain ⟨c, hc, hcs⟩ := hd2
      have := List.dropWhile_eq_nil_iff.mp hcase c hc
      rw [this] at hcs
      exact absurd hcs (by simp)
    | cons c0 t0 => exact ⟨c0, t0, rfl⟩
  have hc0space : jsSpace c0 = false := head_dropWhile_false hv
  have hc0lt : lineTerm c0 = false := by
    cases hcl : lineTerm c0 with
    | false => rfl
    | true =>
      have := jsSpace_of_lineTerm c0 hcl
      rw [this] at hc0space
      exact absurd hc0space (by simp)
  have hvne : d.dropWhile jsSpace ≠ [] := by
    rw [hv]
    simp
  have htw : (d ++ P).takeWhile jsSpace = d.takeWhile jsSpace :=
    takeWhile_append_stop d P hvne
  unfold descAt
  rw [if_pos (isPrefixOf_append_self descKey (' ' :: (d ++ P)))]
  rw [List.drop_left]
  unfold descTail
  rw [show (' ' :: (d ++ P)).takeWhile jsSpace = ' ' :: (d ++ P).takeWhile jsSpace from by
    rw [List.takeWhile_cons, if_pos (by decide : jsSpace ' ' = true)]]
  rw [htw]
  rw [List.length_cons]
  rw [descLoop_succ_eq]
  have hgroup : descGroup (' ' :: (d ++ P)) ((d.takeWhile jsSpace).length + 1) =
      some (d.dropWhile jsSpace) := by
    unfold descGroup
    rw [show List.drop ((d.takeWhile jsSpace).length + 1) (' ' :: (d ++ P)) =
      List.drop (d.takeWhile jsSpace).length (d ++ P) from rfl]
    have hdropn : List.drop (d.takeWhile jsSpace).length (d ++ P) =
        d.dropWhile jsSpace ++ P := by
      rw [← htw, drop_takeWhile_length, dropWhile_append_stop d P hvne]
    rw [hdropn, hv]
    rw [show (c0 :: t0) ++ P = c0 :: (t0 ++ P) from rfl]
    rw [List.head?_cons]
    dsimp only
    rw [if_neg (by rw [hc0lt]; simp)]
    have ht0all : ∀ x ∈ t0, (!lineTerm x) = true := by
      intro x hx
      have hxd : x ∈ d := mem_of_mem_dropWhile (l := d) (p := jsSpace)
        (by rw [hv]; exact List.mem_cons_of_mem c0 hx)
      rw [hd1 x hxd]
      rfl
    rw [List.takeWhile_cons, if_pos (by simp [hc0lt])]
    congr 2
    rw [takeWhile_append_of_all t0 P ht0all]
    rcases hP with hPe | ⟨t2, hPt⟩
    · rw [hPe]
      simp
    · rw [hPt, List.takeWhile_cons, if_neg (by decide)]
      simp
  rw [hgroup]

/-- The multiline description search skips the pre-description lines:
no good line begins the key, dropping a line lands exactly at the next
joined line, and at the end the attempt at the remaining tail decides
the result. -/
theorem descSearchF_lines :
    ∀ (lines : List (List Char)), (∀ l ∈ lines, goodFmLine l = true) →
      ∀ (K0 res : List Char), descAt K0 = some res →
        ∀ fuel, lines.length ≤ fuel →
          descSearchF fuel (joinLinesL lines ++ K0) = some res := by
  intro lines
  induction lines with
  | nil =>
    intro _ K0 res hK fuel _
    rw [joinLinesL_nil, List.nil_append]
    cases fuel with
    | zero => exact hK
    | succ f => rw [descSearchF_succ_eq, hK]
  | cons l r ih =>
    intro hgood K0 res hK fuel hf
    obtain ⟨hne, hlt, _, hnotdesc⟩ := goodFmLine_props l (hgood l (List.mem_cons_self l r))
    obtain ⟨c0, t0, rfl⟩ := exists_cons_of_ne_nil l hne
    cases fuel with
    | zero =>
      rw [List.length_cons] at hf
      exact absurd hf (Nat.not_succ_le_zero r.length)
    | succ f =>
      have hshape : joinLinesL ((c0 :: t0) :: r) ++ K0 =
          c0 :: (t0 ++ '\n' :: (joinLinesL r ++ K0)) := by
        simp [joinLinesL_cons, List.cons_append, List.append_assoc]
      have hnp : ¬ descKey.isPrefixOf (c0 :: (t0 ++ '\n' :: (joinLinesL r ++ K0))) = true := by
        intro hcon
        have hstop := isPrefixOf_stop '\n' descKey (by decide) (c0 :: t0)
          (joinLinesL r ++ K0)
          (by
            rw [show (c0 :: t0) ++ '\n' :: (joinLinesL r ++ K0) =
              c0 :: (t0 ++ '\n' :: (joinLinesL r ++ K0)) from rfl]
            exact hcon)
        rw [hstop] at hnotdesc
        exact Bool.noConfusion hnotdesc
      have hat : descAt (c0 :: (t0 ++ '\n' :: (joinLinesL r ++ K0))) = none := by
        unfold descAt
        rw [if_neg hnp]
      have hdl : dropLine (c0 :: (t0 ++ '\n' :: (joinLinesL r ++ K0))) =
          joinLinesL r ++ K0 := by
        rw [show c0 :: (t0 ++ '\n' :: (joinLinesL r ++ K0)) =
          (c0 :: t0) ++ '\n' :: (joinLinesL r ++ K0) from rfl]
        exact dropLine_append (c0 :: t0) (joinLinesL r ++ K0) hlt
      rw [hshape, descSearchF_succ_eq, hat]
      dsimp only
      rw [hdl]
      exact ih (fun l2 hl2 => hgood l2 (List.mem_cons_of_mem _ hl2)) K0 res hK f
        (by rw [List.length_cons] at hf; omega)

/-- The frontmatter regex on a schema delimited by dash lines: the
greedy whitespace run backtracks from the group head to length one,
only length zero puts a newline after the run, and the lazy group runs
to the given leftmost closing delimiter. -/
theorem frontmatterMatch_core (G b : List Char)
    (hhead : ∃ c t, G = c :: t ∧ jsSpace c = false ∧ c ≠ '-')
    (hfind : findSub nlDashes (G ++ '\n' :: '-' :: '-' :: '-' :: '\n' :: b) =
      some G.length) :
    frontmatterMatch ('-' :: '-' :: '-' :: '\n' ::
        (G ++ '\n' :: '-' :: '-' :: '-' :: '\n' :: b)) =
      some (G, 3 + 0 + 1 + G.length + 4) := by
  obtain ⟨c, t2, hG, hc, _⟩ := hhead
  have hws : (('\n' :: (G ++ '\n' :: '-' :: '-' :: '-' :: '\n' :: b)).takeWhile
      jsSpace).length = 1 := by
    rw [List.takeWhile_cons, if_pos (by decide : jsSpace '\n' = true)]
    rw [hG, List.cons_append, List.takeWhile_cons, if_neg (by simp [hc])]
    rfl
  unfold frontmatterMatch
  rw [if_pos (by simp [List.isPrefixOf])]
  rw [show List.drop 3 ('-' :: '-' :: '-' :: '\n' ::
      (G ++ '\n' :: '-' :: '-' :: '-' :: '\n' :: b)) =
    '\n' :: (G ++ '\n' :: '-' :: '-' :: '-' :: '\n' :: b) from rfl]
  rw [hws, fmTry_one_eq]
  have hfm1 : fmAt ('\n' :: (G ++ '\n' :: '-' :: '-' :: '-' :: '\n' :: b)) 1 = none := by
    have hne2 : ¬ ((('\n' :: (G ++ '\n' :: '-' :: '-' :: '-' :: '\n' :: b)).drop 1).head? =
        some '\n') := by
      rw [show ('\n' :: (G ++ '\n' :: '-' :: '-' :: '-' :: '\n' :: b)).drop 1 =
        G ++ '\n' :: '-' :: '-' :: '-' :: '\n' :: b from rfl]
      rw [hG, List.cons_append, List.head?_cons]
      intro hcon
      rw [Option.some_inj] at hcon
      rw [hcon] at hc
      rw [show jsSpace '\n' = true from by decide] at hc
      exact Bool.noConfusion hc
    unfold fmAt
    rw [if_neg hne2]
  rw [hfm1]
  dsimp only
  rw [fmTry_zero_eq]
  have hfm0 : fmAt ('\n' :: (G ++ '\n' :: '-' :: '-' :: '-' :: '\n' :: b)) 0 =
      some (G, 3 + 0 + 1 + G.length + 4) := by
    unfold fmAt
    rw [if_pos (by simp)]
    rw [show ('\n' :: (G ++ '\n' :: '-' :: '-' :: '-' :: '\n' :: b)).drop (0 + 1) =
      G ++ '\n' :: '-' :: '-' :: '-' :: '\n' :: b from rfl]
    rw [hfind]
    dsimp only
    rw [List.take_left]
  rw [hfm0]

/-- The frontmatter regex on a block of well-formed field lines around
a description field: the captured group is the whole block interior. -/
theorem frontmatterMatch_schema (pre post : List (List Char)) (d b : List Char)
    (hpre : ∀ l ∈ pre, goodFmLine l = true)
    (hpost : ∀ l ∈ post, goodPostLine l = true)
    (hd1 : ∀ c ∈ d, lineTerm c = false) :
    frontmatterMatch ('-' :: '-' :: '-' :: '\n' ::
        ((joinLinesL pre ++ (descKey ++ ' ' :: (d ++ prefixJoinL post))) ++
          '\n' :: '-' :: '-' :: '-' :: '\n' :: b)) =
      some (joinLinesL pre ++ (descKey ++ ' ' :: (d ++ prefixJoinL post)),
        3 + 0 + 1 +
          (joinLinesL pre ++ (descKey ++ ' ' :: (d ++ prefixJoinL post))).length + 4) := by
  have hMex : ∃ m tM, descKey ++ ' ' :: (d ++ prefixJoinL post) = m :: tM ∧
      jsSpace m = false ∧ m ≠ '-' :=
    ⟨'d', ['e', 's', 'c', 'r', 'i', 'p', 't', 'i', 'o', 'n', ':'] ++
      ' ' :: (d ++ prefixJoinL post), rfl, by decide, by decide⟩
  apply frontmatterMatch_core
  · exact joinLinesL_append_head pre hpre _ hMex
  · have h1 : findSub nlDashes
        (prefixJoinL post ++ '\n' :: '-' :: '-' :: '-' :: '\n' :: b) =
        some (prefixJoinL post).length :=
      findSub_postJoin ('-' :: '-' :: '-' :: '\n' :: b) (by simp [List.isPrefixOf])
        post hpost
    have hdk : ∀ c0 ∈ descKey, c0 ≠ '\n' := by decide
    have hLne : ∀ c0 ∈ descKey ++ ' ' :: d, c0 ≠ '\n' := by
      intro c0 hc0
      rcases List.mem_append.mp hc0 with hm | hm
      · exact hdk c0 hm
      · rcases List.mem_cons.mp hm with hm2 | hm2
        · subst hm2
          decide
        · exact ne_nl_of_lineTerm_false c0 (hd1 c0 hm2)
    have h2 : findSub nlDashes
        ((descKey ++ ' ' :: d) ++
          (prefixJoinL post ++ '\n' :: '-' :: '-' :: '-' :: '\n' :: b)) =
        some ((descKey ++ ' ' :: d).length + (prefixJoinL post).length) := by
      rw [show nlDashes = '\n' :: ['-', '-', '-'] from rfl] at h1 ⊢
      exact findSub_append_some '\n' ['-', '-', '-'] (descKey ++ ' ' :: d) _ _ hLne h1
    have h3 := findSub_preJoin pre hpre
      ((descKey ++ ' ' :: d) ++
        (prefixJoinL post ++ '\n' :: '-' :: '-' :: '-' :: '\n' :: b))
      ((descKey ++ ' ' :: d).length + (prefixJoinL post).length)
      ⟨'d', _, rfl, by decide, by decide⟩ h2
    have hre : (joinLinesL pre ++ (descKey ++ ' ' :: (d ++ prefixJoinL post))) ++
        '\n' :: '-' :: '-' :: '-' :: '\n' :: b =
        joinLinesL pre ++ ((descKey ++ ' ' :: d) ++
          (prefixJoinL post ++ '\n' :: '-' :: '-' :: '-' :: '\n' :: b)) := by
      simp [List.append_assoc]
    rw [hre, h3]
    congr 1
    simp only [List.length_append, List.length_cons]
    omega

/-- The multiline description search over the whole captured group:
the pre-description lines are skipped, and at the description line the
value is captured with leading whitespace dropped. -/
theorem descSearch_schema (pre post : List (List Char)) (d : List Char)
    (hpre : ∀ l ∈ pre, goodFmLine l = true)
    (hd1 : ∀ c ∈ d, lineTerm c = false)
    (hd2 : ∃ c ∈ d, jsSpace c = false) :
    descSearch (joinLinesL pre ++ (descKey ++ ' ' :: (d ++ prefixJoinL post))) =
      some (d.dropWhile jsSpace) := by
  have hP : prefixJoinL post = [] ∨ ∃ t2, prefixJoinL post = '\n' :: t2 := by
    cases post with
    | nil => exact Or.inl rfl
    | cons l r => exact Or.inr ⟨l ++ prefixJoinL r, rfl⟩
  have hat := descAt_schema d (prefixJoinL post) hd1 hd2 hP
  have hbound : pre.length ≤
      (joinLinesL pre ++ (descKey ++ ' ' :: (d ++ prefixJoinL post))).length := by
    have h1 := joinLinesL_length pre
    rw [List.length_append]
    omega
  exact descSearchF_lines pre hpre _ _ hat _ hbound

/-- getSkillDescription on a frontmatter block of well-formed field
lines around a description field returns the trimmed, unquoted,
markdown-stripped value. -/
theorem getSkillDescription_frontmatter (pre post : List (List Char)) (d b : List Char)
    (hpre : ∀ l ∈ pre, goodFmLine l = true)
    (hpost : ∀ l ∈ post, goodPostLine l = true)
    (hd1 : ∀ c ∈ d, lineTerm c = false)
    (hd2 : ∃ c ∈ d, jsSpace c = false) :
    getSkillDescriptionL ('-' :: '-' :: '-' :: '\n' ::
        ((joinLinesL pre ++ (descKey ++ ' ' :: (d ++ prefixJoinL post))) ++
          '\n' :: '-' :: '-' :: '-' :: '\n' :: b)) =
      some (stripMarkdownL (stripQuotes (jsTrim d))) := by
  have hfm := frontmatterMatch_schema pre post d b hpre hpost hd1
  have hds := descSearch_schema pre post d hpre hd1 hd2
  unfold getSkillDescriptionL
  rw [hfm]
  dsimp only
  rw [hds]
  dsimp only
  rw [jsTrim_dropWhile]

theorem joinLines_data (lines : List String) :
    (joinLines lines).data = joinLinesL (lines.map String.data) := by
  induction lines with
  | nil => rfl
  | cons l r ih =>
    show (l ++ "\n" ++ joinLines r).data = joinLinesL ((l :: r).map String.data)
    rw [String.data_append, String.data_append, ih]
    rw [List.map_cons, joinLinesL_cons]
    rw [show ("\n").data = ['\n'] from rfl]
    rw [List.append_assoc]
    rfl

theorem prefixLines_data (lines : List String) :
    (prefixLines lines).data = prefixJoinL (lines.map String.data) := by
  induction lines with
  | nil => rfl
  | cons l r ih =>
    show ("\n" ++ l ++ prefixLines r).data = prefixJoinL ((l :: r).map String.data)
    rw [String.data_append, String.data_append, ih]
    rw [List.map_cons, prefixJoinL_cons]
    rw [show ("\n").data = ['\n'] from rfl]
    rfl

/-! ### Candidate construction as a flat map -/

theorem foldl_flatMap {α β : Type} (f : List β → α → List β) (g : α → List β)
    (hf : ∀ acc x, f acc x = acc ++ g x) :
    ∀ (l : List α) (init : List β), l.foldl f init = init ++ l.flatMap g := by
  intro l
  induction l with
  | nil => intro init; simp
  | cons x xs ih =>
    intro init
    rw [List.foldl_cons, hf, List.flatMap_cons, ih, List.append_assoc]

theorem slashItems_eq (skills : List Skill) :
    slashItems (some skills) = skills.flatMap specCandidates := by
  unfold slashItems
  have h := foldl_flatMap
    (fun (items : List SlashCommandItem) (skill : Skill) =>
      let triggers := skill.triggers.getD []
      let slashTriggers := triggers.filter (fun t => ['/'].isPrefixOf t.data)
      if 0 < slashTriggers.length then
        items ++ slashTriggers.map (fun trigger => ⟨skill, trigger⟩)
      else if skill.type = some "agentskills" then
        items ++ [⟨skill, "/" ++ skill.name⟩]
      else items)
    specCandidates
    ?_ skills []
  · dsimp only
    rw [h]
    simp
  · intro acc sk
    dsimp only
    unfold specCandidates
    cases hst : (sk.triggers.getD []).filter (fun t => ['/'].isPrefixOf t.data) with
    | nil =>
      by_cases hty : sk.type = some "agentskills" <;> simp [hst, hty]
    | cons t ts => simp [hst]

/-! ### Claim theorems -/

/-- C1, counterexample: on the surface text hello /foo world with the
recorded range over the slash word /foo, committing the command /foobar
does not produce hello /foobar world with a single space, as the claim
asserts; the splice keeps the original space that lies outside the
replaced range, so the result carries two consecutive spaces, with the
caret at offset fourteen. -/
theorem C1_counterexample :
    (selectItem "hello /foo world" (some (6, 10)) "/foobar").1 ≠ "hello /foobar world" ∧
    selectItem "hello /foo world" (some (6, 10)) "/foobar" = ("hello /foobar  world", 14) := by
  constructor
  · decide
  · decide

/-- C1, amended: with a recorded range from start to stop inside the
surface text, committing a candidate replaces exactly that range with
the command followed by a single space and puts the caret right after
the inserted space; on the example the result is hello /foobar
followed by two spaces and world, caret at offset fourteen. -/
theorem C1_splice_amended :
    (∀ (t c : String) (s e : Nat), s ≤ e → e ≤ t.length →
      selectItem t (some (s, e)) c =
        (⟨t.data.take s ++ c.data ++ ' ' :: t.data.drop e⟩, s + c.length + 1)) ∧
    selectItem "hello /foo world" (some (6, 10)) "/foobar" = ("hello /foobar  world", 14) := by
  constructor
  · intro t c s e h1 h2
    unfold selectItem
    dsimp only
    have hdata : (c ++ " ").data = c.data ++ [' '] := by
      rw [String.data_append]
    have hlen : (c ++ " ").length = c.length + 1 := by
      rw [String.length_append]
      rfl
    have hslen : t.length = t.data.length := rfl
    rw [hdata, hlen]
    refine Prod.ext ?_ ?_
    · dsimp only
      congr 1
      simp [List.append_assoc]
    · dsimp only
      have htakelen : (t.data.take s).length = s := by
        rw [List.length_take]
        exact Nat.min_eq_left (by omega)
      simp only [List.length_append, htakelen, List.length_drop,
        List.length_singleton]
      rw [show c.length = c.data.length from rfl]
      rw [hslen] at h2
      omega
  · decide

/-- C1, witness for the amended theorem at the example input. -/
theorem C1_splice_amended_witness :
    selectItem "hello /foo world" (some (6, 10)) "/foobar" =
      (⟨("hello /foo world").data.take 6 ++ ("/foobar").data ++
          ' ' :: ("hello /foo world").data.drop 10⟩,
        6 + ("/foobar").length + 1) :=
  C1_splice_amended.1 "hello /foo world" "/foobar" 6 10 (by decide) (by decide)

/-- C2: when the content has no frontmatter description field,
getSkillDescription removes the frontmatter block, takes the first
trimmed line that is non-empty, is not a heading and is not a dashes
delimiter, strips markdown from it, and returns its first sentence (the
prefix up to and including the first period, exclamation or question
mark) or the whole stripped line when no terminator exists; it returns
none when no such line exists, as on empty input or heading-only
content, and the spec's example yields its first sentence. -/
theorem C2_body_fallback :
    (∀ content : String, fmDescription content.data = none →
      getSkillDescription content =
        (specBodyDescription (bodyAfterFrontmatter content.data)).map (fun l => ⟨l⟩)) ∧
    getSkillDescription "" = none ∧
    getSkillDescription "# Title\n## Subtitle" = none ∧
    getSkillDescription "# Title\n\nThis is a description." = some "This is a description." := by
  refine ⟨?_, by decide, by decide, by decide⟩
  intro content h
  unfold fmDescription at h
  unfold getSkillDescription getSkillDescriptionL bodyAfterFrontmatter
  cases hfm : frontmatterMatch content.data with
  | none =>
    dsimp only
    rw [bodyDescription_eq_spec]
  | some g =>
    obtain ⟨grp, mlen⟩ := g
    rw [hfm] at h
    dsimp only at h
    dsimp only
    rw [h]
    dsimp only
    rw [bodyDescription_eq_spec]

/-- C2, witness at a concrete content without a frontmatter
description. -/
theorem C2_body_fallback_witness :
    getSkillDescription "# Title\n\nThis is a description." =
      (specBodyDescription
        (bodyAfterFrontmatter ("# Title\n\nThis is a description.").data)).map
        (fun l => ⟨l⟩) :=
  C2_body_fallback.1 "# Title\n\nThis is a description." (by decide)

/-- C3: content that begins with a frontmatter block containing a
single-line description field, surrounded by arbitrary well-formed
field lines before and after it, yields that value with one matching
pair of surrounding quotes removed and markdown stripped, ignoring the
body entirely. -/
theorem C3_frontmatter_field :
    ∀ (pre post : List String) (d body : String),
      (∀ l ∈ pre, goodFmLine l.data = true) →
      (∀ l ∈ post, goodPostLine l.data = true) →
      (∀ c ∈ d.data, lineTerm c = false) →
      (∃ c ∈ d.data, jsSpace c = false) →
      getSkillDescription ("---\n" ++ joinLines pre ++ "description: " ++ d ++
          prefixLines post ++ "\n---\n" ++ body) =
        some (stripMarkdown ⟨stripQuotes (jsTrim d.data)⟩) := by
  intro pre post d body hpre hpost hd1 hd2
  have hpre2 : ∀ l ∈ pre.map String.data, goodFmLine l = true := by
    intro l hl
    obtain ⟨s, hs, rfl⟩ := List.mem_map.mp hl
    exact hpre s hs
  have hpost2 : ∀ l ∈ post.map String.data, goodPostLine l = true := by
    intro l hl
    obtain ⟨s, hs, rfl⟩ := List.mem_map.mp hl
    exact hpost s hs
  have hdata : ("---\n" ++ joinLines pre ++ "description: " ++ d ++
      prefixLines post ++ "\n---\n" ++ body).data =
      '-' :: '-' :: '-' :: '\n' ::
        ((joinLinesL (pre.map String.data) ++
          (descKey ++ ' ' :: (d.data ++ prefixJoinL (post.map String.data)))) ++
          '\n' :: '-' :: '-' :: '-' :: '\n' :: body.data) := by
    simp only [String.data_append, joinLines_data, prefixLines_data]
    rw [show descKey = ['d', 'e', 's', 'c', 'r', 'i', 'p', 't', 'i', 'o', 'n', ':'] from rfl]
    simp [List.append_assoc]
  unfold getSkillDescription
  rw [hdata]
  rw [getSkillDescription_frontmatter (pre.map String.data) (post.map String.data)
    d.data body.data hpre2 hpost2 hd1 hd2]
  rfl

/-- C3, witness at the spec's example and at a multi-field frontmatter
with fields before and after the description field. -/
theorem C3_frontmatter_field_witness :
    getSkillDescription ("---\n" ++ joinLines [] ++ "description: " ++ "\"Quoted\"" ++
        prefixLines [] ++ "\n---\n" ++ "Body") =
      some (stripMarkdown ⟨stripQuotes (jsTrim ("\"Quoted\"").data)⟩) ∧
    stripMarkdown ⟨stripQuotes (jsTrim ("\"Quoted\"").data)⟩ = "Quoted" ∧
    getSkillDescription ("---\n" ++ joinLines ["name: test"] ++ "description: " ++
        "A test skill" ++ prefixLines ["triggers: x"] ++ "\n---\n" ++
        "## Usage\nDetails here.") =
      some (stripMarkdown ⟨stripQuotes (jsTrim ("A test skill").data)⟩) :=
  ⟨C3_frontmatter_field [] [] "\"Quoted\"" "Body" (by decide) (by decide) (by decide)
      (by decide),
    by decide,
    C3_frontmatter_field ["name: test"] ["triggers: x"] "A test skill"
      "## Usage\nDetails here." (by decide) (by decide) (by decide) (by decide)⟩

/-- C4: the candidate list contains, in order, one candidate per slash
trigger of each skill that has one, a synthesized slash-name candidate
for each agentskills skill without slash triggers, and nothing for any
other skill; the two-skill example yields exactly its two candidates. -/
theorem C4_candidate_construction :
    (∀ skills : List Skill, slashItems (some skills) = skills.flatMap specCandidates) ∧
    slashItems (some [demoSkillA, demoSkillB]) =
      [⟨demoSkillA, "/a"⟩, ⟨demoSkillB, "/b"⟩] := by
  constructor
  · exact slashItems_eq
  · decide

/-- C5: an empty filter keeps the whole candidate list; a non-empty
filter keeps exactly the candidates whose command without the leading
slash, or whose skill name, contains the filter case-insensitively; the
ra example keeps only the random-number candidate. -/
theorem C5_filtering :
    (∀ items : List SlashCommandItem, filteredItems items "" = items) ∧
    (∀ (items : List SlashCommandItem) (f : String), f ≠ "" →
      filteredItems items f =
        items.filter (fun it =>
          containsCI ⟨it.command.data.drop 1⟩ f || containsCI it.skill.name f)) ∧
    filteredItems [demoItemRandom, demoItemCode] "ra" = [demoItemRandom] := by
  refine ⟨?_, ?_, by decide⟩
  · intro items
    unfold filteredItems
    rw [if_pos rfl]
  · intro items f hf
    unfold filteredItems
    rw [if_neg hf]
    rfl

/-- C5, witness at the ra example. -/
theorem C5_filtering_witness :
    filteredItems [demoItemRandom, demoItemCode] "ra" =
      List.filter
        (fun it => containsCI ⟨it.command.data.drop 1⟩ "ra" || containsCI it.skill.name "ra")
        [demoItemRandom, demoItemCode] :=
  C5_filtering.2.1 [demoItemRandom, demoItemCode] "ra" (by decide)

/-- C7: with the menu open on a non-empty filtered list, ArrowDown
moves the highlighted index one down and wraps from the last index to
zero, ArrowUp moves it one up and wraps from zero to the last index,
and both events are consumed with their default action suppressed. -/
theorem C7_arrow_navigation (items : List SlashCommandItem) (i : Nat)
    (hne : items ≠ []) (hi : i < items.length) :
    handleSlashKeyDown true items i "ArrowDown" =
      ⟨true, true, true, if i = items.length - 1 then 0 else i + 1, none⟩ ∧
    handleSlashKeyDown true items i "ArrowUp" =
      ⟨true, true, true, if i = 0 then items.length - 1 else i - 1, none⟩ := by
  have hlen0 : (items.length == 0) = false := by
    rw [beq_eq_false_iff_ne]
    simp [hne]
  constructor
  · unfold handleSlashKeyDown
    rw [if_neg (by simp [hlen0])]
    rw [if_pos rfl]
    have hidx : (if i < items.length - 1 then i + 1 else 0) =
        if i = items.length - 1 then 0 else i + 1 := by
      split_ifs <;> omega
    rw [hidx]
  · unfold handleSlashKeyDown
    rw [if_neg (by simp [hlen0])]
    rw [if_neg (by decide : ¬("ArrowUp" = "ArrowDown"))]
    rw [if_pos rfl]
    have hidx : (if 0 < i then i - 1 else items.length - 1) =
        if i = 0 then items.length - 1 else i - 1 := by
      split_ifs <;> omega
    rw [hidx]

/-- C7, witness on a two-item list at the last index: ArrowDown wraps
to zero and ArrowUp steps back. -/
theorem C7_arrow_navigation_witness :
    handleSlashKeyDown true [demoItemRandom, demoItemCode] 1 "ArrowDown" =
      ⟨true, true, true,
        if 1 = ([demoItemRandom, demoItemCode] : List SlashCommandItem).length - 1 then 0
        else 1 + 1, none⟩ ∧
    handleSlashKeyDown true [demoItemRandom, demoItemCode] 1 "ArrowUp" =
      ⟨true, true, true,
        if 1 = 0 then ([demoItemRandom, demoItemCode] : List SlashCommandItem).length - 1
        else 1 - 1, none⟩ :=
  C7_arrow_navigation [demoItemRandom, demoItemCode] 1 (by decide) (by decide)

/-- C8: with the menu open on a non-empty filtered list, ArrowLeft,
ArrowRight, Home and End close the menu without consuming the event and
without suppressing its default action, and any key outside the handled
set leaves the state unchanged and is not consumed. -/
theorem C8_cursor_keys (items : List SlashCommandItem) (i : Nat) (key : String)
    (hne : items ≠ []) :
    (key = "ArrowLeft" ∨ key = "ArrowRight" ∨ key = "Home" ∨ key = "End" →
      handleSlashKeyDown true items i key = ⟨false, false, false, i, none⟩) ∧
    (key ∉ (["ArrowDown", "ArrowUp", "Enter", "Tab", "Escape",
        "ArrowLeft", "ArrowRight", "Home", "End"] : List String) →
      handleSlashKeyDown true items i key = ⟨false, false, true, i, none⟩) := by
  have hlen0 : (items.length == 0) = false := by
    rw [beq_eq_false_iff_ne]
    simp [hne]
  constructor
  · intro hk
    unfold handleSlashKeyDown
    rw [if_neg (by simp [hlen0])]
    rcases hk with h | h | h | h <;> subst h
    · rw [if_neg (by decide), if_neg (by decide), if_neg (by decide),
        if_neg (by decide), if_pos (by decide)]
    · rw [if_neg (by decide), if_neg (by decide), if_neg (by decide),
        if_neg (by decide), if_pos (by decide)]
    · rw [if_neg (by decide), if_neg (by decide), if_neg (by decide),
        if_neg (by decide), if_pos (by decide)]
    · rw [if_neg (by decide), if_neg (by decide), if_neg (by decide),
        if_neg (by decide), if_pos (by decide)]
  · intro hk
    have h1 : key ≠ "ArrowDown" := fun h => hk (by simp [h])
    have h2 : key ≠ "ArrowUp" := fun h => hk (by simp [h])
    have h3 : key ≠ "Enter" := fun h => hk (by simp [h])
    have h4 : key ≠ "Tab" := fun h => hk (by simp [h])
    have h5 : key ≠ "Escape" := fun h => hk (by simp [h])
    have h6 : key ≠ "ArrowLeft" := fun h => hk (by simp [h])
    have h7 : key ≠ "ArrowRight" := fun h => hk (by simp [h])
    have h8 : key ≠ "Home" := fun h => hk (by simp [h])
    have h9 : key ≠ "End" := fun h => hk (by simp [h])
    unfold handleSlashKeyDown
    rw [if_neg (by simp [hlen0])]
    rw [if_neg h1, if_neg h2]
    rw [if_neg (by simp [h3, h4])]
    rw [if_neg h5]
    rw [if_neg (by simp [h6, h7, h8, h9])]

/-- C8, witness: ArrowLeft on a one-item list, and an unrelated key. -/
theorem C8_cursor_keys_witness :
    handleSlashKeyDown true [demoItemRandom] 0 "ArrowLeft" = ⟨false, false, false, 0, none⟩ ∧
    handleSlashKeyDown true [demoItemRandom] 0 "a" = ⟨false, false, true, 0, none⟩ :=
  ⟨(C8_cursor_keys [demoItemRandom] 0 "ArrowLeft" (by decide)).1 (Or.inl rfl),
    (C8_cursor_keys [demoItemRandom] 0 "a" (by decide)).2 (by decide)⟩

/-- C9: the menu open decision of updateSlashMenu looks only at the
detection result and the unfiltered candidate list: with a detected
slash word and a non-empty unfiltered list the menu opens and records
the typed filter text, even when no candidate matches that text, and in
that state the keyboard handler consumes no key and changes nothing. -/
theorem C9_menu_open_unfiltered (text : String) (s e : Nat)
    (items : List SlashCommandItem) (st : MenuState) (hne : items ≠ []) :
    (updateSlashMenu (some (text, s, e)) items st).isMenuOpen = true ∧
    (updateSlashMenu (some (text, s, e)) items st).filterText = text ∧
    (filteredItems items text = [] →
      ∀ (i : Nat) (key : String),
        handleSlashKeyDown true (filteredItems items text) i key =
          ⟨false, false, true, i, none⟩) := by
  have hpos : 0 < items.length := List.length_pos.mpr hne
  refine ⟨?_, ?_, ?_⟩
  · unfold updateSlashMenu
    dsimp only
    rw [if_pos hpos]
  · unfold updateSlashMenu
    dsimp only
    rw [if_pos hpos]
  · intro hemp i key
    rw [hemp]
    unfold handleSlashKeyDown
    rw [if_pos (by decide)]

/-- C9, witness on a one-item list with an unmatchable filter text. -/
theorem C9_menu_open_unfiltered_witness :
    (updateSlashMenu (some ("zzz", 0, 4)) [demoItemRandom]
        ⟨false, "", 0, none⟩).isMenuOpen = true ∧
    (updateSlashMenu (some ("zzz", 0, 4)) [demoItemRandom]
        ⟨false, "", 0, none⟩).filterText = "zzz" ∧
    handleSlashKeyDown true (filteredItems [demoItemRandom] "zzz") 0 "Enter" =
      ⟨false, false, true, 0, none⟩ := by
  have h := C9_menu_open_unfiltered "zzz" 0 4 [demoItemRandom] ⟨false, "", 0, none⟩
    (by decide)
  exact ⟨h.1, h.2.1, h.2.2 (by decide) 0 "Enter"⟩

/-- C10: a change of the filter text resets the highlighted index to
zero, which lies in bounds of every non-empty candidate list. -/
theorem C10_filter_reset (st : MenuState) :
    (onFilterTextChange st).selectedIndex = 0 ∧
    ∀ l : List SlashCommandItem, l ≠ [] →
      (onFilterTextChange st).selectedIndex < l.length := by
  constructor
  · rfl
  · intro l hl
    show (0 : Nat) < l.length
    exact List.length_pos.mpr hl

/-- C10, witness at a concrete state and list. -/
theorem C10_filter_reset_witness :
    (onFilterTextChange ⟨true, "x", 5, none⟩).selectedIndex = 0 ∧
    (onFilterTextChange ⟨true, "x", 5, none⟩).selectedIndex <
      ([demoItemRandom] : List SlashCommandItem).length :=
  ⟨(C10_filter_reset ⟨true, "x", 5, none⟩).1,
    (C10_filter_reset ⟨true, "x", 5, none⟩).2 [demoItemRandom] (by decide)⟩

/-! ### Decorated forms for the markdown stripper -/

theorem plain_props (inner : List Char) (h : ∀ c ∈ inner, plainChar c = true) :
    (∀ c ∈ inner, lineTerm c = false) ∧ (∀ c ∈ inner, c ≠ '!') ∧
    (∀ c ∈ inner, c ≠ '[') ∧ (∀ c ∈ inner, c ≠ ']') ∧
    (∀ c ∈ inner, c ≠ '(') ∧ (∀ c ∈ inner, c ≠ ')') ∧
    (∀ c ∈ inner, c ≠ '*') ∧ (∀ c ∈ inner, c ≠ '_') ∧
    (∀ c ∈ inner, c ≠ btick) ∧ (∀ c ∈ inner, c ≠ '~') := by
  refine ⟨?_, ?_, ?_, ?_, ?_, ?_, ?_, ?_, ?_, ?_⟩ <;>
    · intro c hc
      have hp := h c hc
      unfold plainChar at hp
      simp only [Bool.not_eq_true', Bool.or_eq_false_iff, decide_eq_false_iff_not] at hp
      tauto

theorem mem_form_pair (D inner : List Char) (c : Char) (hc : c ∈ D ++ inner ++ D) :
    c ∈ D ∨ c ∈ inner := by
  rcases List.mem_append.mp hc with h | h
  · rcases List.mem_append.mp h with h2 | h2
    · exact Or.inl h2
    · exact Or.inr h2
  · exact Or.inl h

theorem all_ne_pair_form (D inner : List Char) (y : Char)
    (hD : ∀ c ∈ D, c ≠ y) (hI : ∀ c ∈ inner, c ≠ y) :
    ∀ c ∈ D ++ inner ++ D, c ≠ y := by
  intro c hc
  rcases mem_form_pair D inner c hc with h | h
  · exact hD c h
  · exact hI c h

theorem all_ne_bracket_form (alt url : List Char) (y : Char)
    (h1 : '[' ≠ y) (h2 : ']' ≠ y) (h3 : '(' ≠ y) (h4 : ')' ≠ y)
    (hA : ∀ c ∈ alt, c ≠ y) (hU : ∀ c ∈ url, c ≠ y) :
    ∀ c ∈ '[' :: (alt ++ ']' :: '(' :: (url ++ [')'])), c ≠ y := by
  intro c hc
  rcases List.mem_cons.mp hc with h | h
  · subst h; exact h1
  · rcases List.mem_append.mp h with h | h
    · exact hA c h
    · rcases List.mem_cons.mp h with h | h
      · subst h; exact h2
      · rcases List.mem_cons.mp h with h | h
        · subst h; exact h3
        · rcases List.mem_append.mp h with h | h
          · exact hU c h
          · rcases List.mem_cons.mp h with h | h
            · subst h; exact h4
            · simp at h

theorem all_ne_image_form (alt url : List Char) (y : Char)
    (h0 : '!' ≠ y) (h1 : '[' ≠ y) (h2 : ']' ≠ y) (h3 : '(' ≠ y) (h4 : ')' ≠ y)
    (hA : ∀ c ∈ alt, c ≠ y) (hU : ∀ c ∈ url, c ≠ y) :
    ∀ c ∈ '!' :: '[' :: (alt ++ ']' :: '(' :: (url ++ [')'])), c ≠ y := by
  intro c hc
  rcases List.mem_cons.mp hc with h | h
  · subst h; exact h0
  · exact all_ne_bracket_form alt url y h1 h2 h3 h4 hA hU c h

theorem stripL_star3 (inner : List Char) (hne : inner ≠ [])
    (hp : ∀ c ∈ inner, plainChar c = true) :
    stripMarkdownL (['*', '*', '*'] ++ inner ++ ['*', '*', '*']) = inner := by
  obtain ⟨hlt, hbang, hlb, _, _, _, hstar, hus, hbt, htl⟩ := plain_props inner hp
  unfold stripMarkdownL
  rw [replaceBracket_id_true _ (all_ne_pair_form _ _ _ (by decide) hbang)]
  rw [replaceBracket_id_false _ (all_ne_pair_form _ _ _ (by decide) hlb)]
  rw [replacePair_strip '*' ['*', '*'] inner hne (fun c hc => ⟨hlt c hc, hstar c hc⟩)]
  rw [replacePair_all_ne '*' ['*'] inner hstar]
  rw [replacePair_all_ne '*' [] inner hstar]
  rw [replacePair_all_ne '_' ['_', '_'] inner hus]
  rw [replacePair_all_ne '_' ['_'] inner hus]
  rw [replacePair_all_ne '_' [] inner hus]
  rw [replacePair_all_ne btick [] inner hbt]
  rw [replacePair_all_ne '~' ['~'] inner htl]

theorem stripL_star2 (inner : List Char) (hne : inner ≠ [])
    (hp : ∀ c ∈ inner, plainChar c = true) :
    stripMarkdownL (['*', '*'] ++ inner ++ ['*', '*']) = inner := by
  obtain ⟨hlt, hbang, hlb, _, _, _, hstar, hus, hbt, htl⟩ := plain_props inner hp
  unfold stripMarkdownL
  rw [replaceBracket_id_true _ (all_ne_pair_form _ _ _ (by decide) hbang)]
  rw [replaceBracket_id_false _ (all_ne_pair_form _ _ _ (by decide) hlb)]
  rw [replacePair_findSub_none _ _ (noTriple_in_double '*' inner hne hstar)]
  rw [replacePair_strip '*' ['*'] inner hne (fun c hc => ⟨hlt c hc, hstar c hc⟩)]
  rw [replacePair_all_ne '*' [] inner hstar]
  rw [replacePair_all_ne '_' ['_', '_'] inner hus]
  rw [replacePair_all_ne '_' ['_'] inner hus]
  rw [replacePair_all_ne '_' [] inner hus]
  rw [replacePair_all_ne btick [] inner hbt]
  rw [replacePair_all_ne '~' ['~'] inner htl]

theorem stripL_star1 (inner : List Char) (hne : inner ≠ [])
    (hp : ∀ c ∈ inner, plainChar c = true) :
    stripMarkdownL (['*'] ++ inner ++ ['*']) = inner := by
  obtain ⟨hlt, hbang, hlb, _, _, _, hstar, hus, hbt, htl⟩ := plain_props inner hp
  unfold stripMarkdownL
  rw [replaceBracket_id_true _ (all_ne_pair_form _ _ _ (by decide) hbang)]
  rw [replaceBracket_id_false _ (all_ne_pair_form _ _ _ (by decide) hlb)]
  rw [replacePair_findSub_none _ _ (noTriple_in_single '*' inner hne hstar)]
  rw [replacePair_findSub_none _ _ (noDouble_in_single '*' inner hne hstar)]
  rw [replacePair_strip '*' [] inner hne (fun c hc => ⟨hlt c hc, hstar c hc⟩)]
  rw [replacePair_all_ne '_' ['_', '_'] inner hus]
  rw [replacePair_all_ne '_' ['_'] inner hus]
  rw [replacePair_all_ne '_' [] inner hus]
  rw [replacePair_all_ne btick [] inner hbt]
  rw [replacePair_all_ne '~' ['~'] inner htl]

theorem stripL_us3 (inner : List Char) (hne : inner ≠ [])
    (hp : ∀ c ∈ inner, plainChar c = true) :
    stripMarkdownL (['_', '_', '_'] ++ inner ++ ['_', '_', '_']) = inner := by
  obtain ⟨hlt, hbang, hlb, _, _, _, hstar, hus, hbt, htl⟩ := plain_props inner hp
  unfold stripMarkdownL
  rw [replaceBracket_id_true _ (all_ne_pair_form _ _ _ (by decide) hbang)]
  rw [replaceBracket_id_false _ (all_ne_pair_form _ _ _ (by decide) hlb)]
  rw [replacePair_all_ne '*' ['*', '*'] _ (all_ne_pair_form _ _ _ (by decide) hstar)]
  rw [replacePair_all_ne '*' ['*'] _ (all_ne_pair_form _ _ _ (by decide) hstar)]
  rw [replacePair_all_ne '*' [] _ (all_ne_pair_form _ _ _ (by decide) hstar)]
  rw [replacePair_strip '_' ['_', '_'] inner hne (fun c hc => ⟨hlt c hc, hus c hc⟩)]
  rw [replacePair_all_ne '_' ['_'] inner hus]
  rw [replacePair_all_ne '_' [] inner hus]
  rw [replacePair_all_ne btick [] inner hbt]
  rw [replacePair_all_ne '~' ['~'] inner htl]

theorem stripL_us2 (inner : List Char) (hne : inner ≠ [])
    (hp : ∀ c ∈ inner, plainChar c = true) :
    stripMarkdownL (['_', '_'] ++ inner ++ ['_', '_']) = inner := by
  obtain ⟨hlt, hbang, hlb, _, _, _, hstar, hus, hbt, htl⟩ := plain_props inner hp
  unfold stripMarkdownL
  rw [replaceBracket_id_true _ (all_ne_pair_form _ _ _ (by decide) hbang)]
  rw [replaceBracket_id_false _ (all_ne_pair_form _ _ _ (by decide) hlb)]
  rw [replacePair_all_ne '*' ['*', '*'] _ (all_ne_pair_form _ _ _ (by decide) hstar)]
  rw [replacePair_all_ne '*' ['*'] _ (all_ne_pair_form _ _ _ (by decide) hstar)]
  rw [replacePair_all_ne '*' [] _ (all_ne_pair_form _ _ _ (by decide) hstar)]
  rw [replacePair_findSub_none _ _ (noTriple_in_double '_' inner hne hus)]
  rw [replacePair_strip '_' ['_'] inner hne (fun c hc => ⟨hlt c hc, hus c hc⟩)]
  rw [replacePair_all_ne '_' [] inner hus]
  rw [replacePair_all_ne btick [] inner hbt]
  rw [replacePair_all_ne '~' ['~'] inner htl]

theorem stripL_us1 (inner : List Char) (hne : inner ≠ [])
    (hp : ∀ c ∈ inner, plainChar c = true) :
    stripMarkdownL (['_'] ++ inner ++ ['_']) = inner := by
  obtain ⟨hlt, hbang, hlb, _, _, _, hstar, hus, hbt, htl⟩ := plain_props inner hp
  unfold stripMarkdownL
  rw [replaceBracket_id_true _ (all_ne_pair_form _ _ _ (by decide) hbang)]
  rw [replaceBracket_id_false _ (all_ne_pair_form _ _ _ (by decide) hlb)]
  rw [replacePair_all_ne '*' ['*', '*'] _ (all_ne_pair_form _ _ _ (by decide) hstar)]
  rw [replacePair_all_ne '*' ['*'] _ (all_ne_pair_form _ _ _ (by decide) hstar)]
  rw [replacePair_all_ne '*' [] _ (all_ne_pair_form _ _ _ (by decide) hstar)]
  rw [replacePair_findSub_none _ _ (noTriple_in_single '_' inner hne hus)]
  rw [replacePair_findSub_none _ _ (noDouble_in_single '_' inner hne hus)]
  rw [replacePair_strip '_' [] inner hne (fun c hc => ⟨hlt c hc, hus c hc⟩)]
  rw [replacePair_all_ne btick [] inner hbt]
  rw [replacePair_all_ne '~' ['~'] inner htl]

theorem stripL_code (inner : List Char) (hne : inner ≠ [])
    (hp : ∀ c ∈ inner, plainChar c = true) :
    stripMarkdownL ([btick] ++ inner ++ [btick]) = inner := by
  obtain ⟨hlt, hbang, hlb, _, _, _, hstar, hus, hbt, htl⟩ := plain_props inner hp
  unfold stripMarkdownL
  rw [replaceBracket_id_true _ (all_ne_pair_form _ _ _ (by decide) hbang)]
  rw [replaceBracket_id_false _ (all_ne_pair_form _ _ _ (by decide) hlb)]
  rw [replacePair_all_ne '*' ['*', '*'] _ (all_ne_pair_form _ _ _ (by decide) hstar)]
  rw [replacePair_all_ne '*' ['*'] _ (all_ne_pair_form _ _ _ (by decide) hstar)]
  rw [replacePair_all_ne '*' [] _ (all_ne_pair_form _ _ _ (by decide) hstar)]
  rw [replacePair_all_ne '_' ['_', '_'] _ (all_ne_pair_form _ _ _ (by decide) hus)]
  rw [replacePair_all_ne '_' ['_'] _ (all_ne_pair_form _ _ _ (by decide) hus)]
  rw [replacePair_all_ne '_' [] _ (all_ne_pair_form _ _ _ (by decide) hus)]
  rw [replacePair_strip btick [] inner hne (fun c hc => ⟨hlt c hc, hbt c hc⟩)]
  rw [replacePair_all_ne '~' ['~'] inner htl]

theorem stripL_tilde (inner : List Char) (hne : inner ≠ [])
    (hp : ∀ c ∈ inner, plainChar c = true) :
    stripMarkdownL (['~', '~'] ++ inner ++ ['~', '~']) = inner := by
  obtain ⟨hlt, hbang, hlb, _, _, _, hstar, hus, hbt, htl⟩ := plain_props inner hp
  unfold stripMarkdownL
  rw [replaceBracket_id_true _ (all_ne_pair_form _ _ _ (by decide) hbang)]
  rw [replaceBracket_id_false _ (all_ne_pair_form _ _ _ (by decide) hlb)]
  rw [replacePair_all_ne '*' ['*', '*'] _ (all_ne_pair_form _ _ _ (by decide) hstar)]
  rw [replacePair_all_ne '*' ['*'] _ (all_ne_pair_form _ _ _ (by decide) hstar)]
  rw [replacePair_all_ne '*' [] _ (all_ne_pair_form _ _ _ (by decide) hstar)]
  rw [replacePair_all_ne '_' ['_', '_'] _ (all_ne_pair_form _ _ _ (by decide) hus)]
  rw [replacePair_all_ne '_' ['_'] _ (all_ne_pair_form _ _ _ (by decide) hus)]
  rw [replacePair_all_ne '_' [] _ (all_ne_pair_form _ _ _ (by decide) hus)]
  rw [replacePair_all_ne btick [] _ (all_ne_pair_form _ _ _ (by decide) hbt)]
  rw [replacePair_strip '~' ['~'] inner hne (fun c hc => ⟨hlt c hc, htl c hc⟩)]

theorem stripL_image (alt url : List Char)
    (hpA : ∀ c ∈ alt, plainChar c = true) (hpU : ∀ c ∈ url, plainChar c = true) :
    stripMarkdownL ('!' :: '[' :: (alt ++ ']' :: '(' :: (url ++ [')']))) = alt := by
  obtain ⟨hltA, hbangA, hlbA, hrbA, _, _, hstarA, husA, hbtA, htlA⟩ := plain_props alt hpA
  obtain ⟨_, _, _, _, _, hrpU, _, _, _, _⟩ := plain_props url hpU
  unfold stripMarkdownL
  rw [replaceBracket_image alt url hrbA hrpU]
  rw [replaceBracket_id_false alt hlbA]
  rw [replacePair_all_ne '*' ['*', '*'] alt hstarA]
  rw [replacePair_all_ne '*' ['*'] alt hstarA]
  rw [replacePair_all_ne '*' [] alt hstarA]
  rw [replacePair_all_ne '_' ['_', '_'] alt husA]
  rw [replacePair_all_ne '_' ['_'] alt husA]
  rw [replacePair_all_ne '_' [] alt husA]
  rw [replacePair_all_ne btick [] alt hbtA]
  rw [replacePair_all_ne '~' ['~'] alt htlA]

theorem stripL_link (alt url : List Char)
    (hpA : ∀ c ∈ alt, plainChar c = true) (hpU : ∀ c ∈ url, plainChar c = true) :
    stripMarkdownL ('[' :: (alt ++ ']' :: '(' :: (url ++ [')']))) = alt := by
  obtain ⟨hltA, hbangA, hlbA, hrbA, _, _, hstarA, husA, hbtA, htlA⟩ := plain_props alt hpA
  obtain ⟨_, hbangU, _, _, _, hrpU, _, _, _, _⟩ := plain_props url hpU
  unfold stripMarkdownL
  rw [replaceBracket_id_true _
    (all_ne_bracket_form alt url '!' (by decide) (by decide) (by decide) (by decide)
      hbangA hbangU)]
  rw [replaceBracket_link alt url hrbA hrpU]
  rw [replacePair_all_ne '*' ['*', '*'] alt hstarA]
  rw [replacePair_all_ne '*' ['*'] alt hstarA]
  rw [replacePair_all_ne '*' [] alt hstarA]
  rw [replacePair_all_ne '_' ['_', '_'] alt husA]
  rw [replacePair_all_ne '_' ['_'] alt husA]
  rw [replacePair_all_ne '_' [] alt husA]
  rw [replacePair_all_ne btick [] alt hbtA]
  rw [replacePair_all_ne '~' ['~'] alt htlA]

/-- C6: stripMarkdown is idempotent on its own output whenever that
output is clean of any remaining pattern match (the formal reading of
an input lacking nested delimiters), and on every decorated form
(image, link, triple, double and single star, the underscore variants,
inline code and strikethrough, around non-empty plain inner text) it
removes exactly the delimiter pair while preserving the inner text. -/
theorem C6_strip_markdown :
    (∀ s : String, isClean (stripMarkdownL s.data) = true →
      stripMarkdown (stripMarkdown s) = stripMarkdown s) ∧
    (∀ inner url : String, inner.data ≠ [] → plainStr inner = true → plainStr url = true →
      stripMarkdown ("![" ++ inner ++ "](" ++ url ++ ")") = inner ∧
      stripMarkdown ("[" ++ inner ++ "](" ++ url ++ ")") = inner ∧
      stripMarkdown ("***" ++ inner ++ "***") = inner ∧
      stripMarkdown ("**" ++ inner ++ "**") = inner ∧
      stripMarkdown ("*" ++ inner ++ "*") = inner ∧
      stripMarkdown ("___" ++ inner ++ "___") = inner ∧
      stripMarkdown ("__" ++ inner ++ "__") = inner ∧
      stripMarkdown ("_" ++ inner ++ "_") = inner ∧
      stripMarkdown ("\x60" ++ inner ++ "\x60") = inner ∧
      stripMarkdown ("~~" ++ inner ++ "~~") = inner) := by
  constructor
  · intro s h
    unfold stripMarkdown
    dsimp only
    exact congrArg String.mk (stripMarkdownL_id_of_clean _ h)
  · intro inner url hne hpi hpu
    have hp : ∀ c ∈ inner.data, plainChar c = true := by
      unfold plainStr at hpi
      exact List.all_eq_true.mp hpi
    have hpu2 : ∀ c ∈ url.data, plainChar c = true := by
      unfold plainStr at hpu
      exact List.all_eq_true.mp hpu
    refine ⟨?_, ?_, ?_, ?_, ?_, ?_, ?_, ?_, ?_, ?_⟩
    · have hdata : ("![" ++ inner ++ "](" ++ url ++ ")").data =
          '!' :: '[' :: (inner.data ++ ']' :: '(' :: (url.data ++ [')'])) := by
        simp [String.data_append, List.append_assoc]
      unfold stripMarkdown
      rw [hdata, stripL_image inner.data url.data hp hpu2]
    · have hdata : ("[" ++ inner ++ "](" ++ url ++ ")").data =
          '[' :: (inner.data ++ ']' :: '(' :: (url.data ++ [')'])) := by
        simp [String.data_append, List.append_assoc]
      unfold stripMarkdown
      rw [hdata, stripL_link inner.data url.data hp hpu2]
    · have hdata : ("***" ++ inner ++ "***").data =
          ['*', '*', '*'] ++ inner.data ++ ['*', '*', '*'] := by
        simp [String.data_append]
      unfold stripMarkdown
      rw [hdata, stripL_star3 inner.data hne hp]
    · have hdata : ("**" ++ inner ++ "**").data =
          ['*', '*'] ++ inner.data ++ ['*', '*'] := by
        simp [String.data_append]
      unfold stripMarkdown
      rw [hdata, stripL_star2 inner.data hne hp]
    · have hdata : ("*" ++ inner ++ "*").data = ['*'] ++ inner.data ++ ['*'] := by
        simp [String.data_append]
      unfold stripMarkdown
      rw [hdata, stripL_star1 inner.data hne hp]
    · have hdata : ("___" ++ inner ++ "___").data =
          ['_', '_', '_'] ++ inner.data ++ ['_', '_', '_'] := by
        simp [String.data_append]
      unfold stripMarkdown
      rw [hdata, stripL_us3 inner.data hne hp]
    · have hdata : ("__" ++ inner ++ "__").data =
          ['_', '_'] ++ inner.data ++ ['_', '_'] := by
        simp [String.data_append]
      unfold stripMarkdown
      rw [hdata, stripL_us2 inner.data hne hp]
    · have hdata : ("_" ++ inner ++ "_").data = ['_'] ++ inner.data ++ ['_'] := by
        simp [String.data_append]
      unfold stripMarkdown
      rw [hdata, stripL_us1 inner.data hne hp]
    · have hdata : ("\x60" ++ inner ++ "\x60").data = [btick] ++ inner.data ++ [btick] := by
        simp [String.data_append, btick]
      unfold stripMarkdown
      rw [hdata, stripL_code inner.data hne hp]
    · have hdata : ("~~" ++ inner ++ "~~").data =
          ['~', '~'] ++ inner.data ++ ['~', '~'] := by
        simp [String.data_append]
      unfold stripMarkdown
      rw [hdata, stripL_tilde inner.data hne hp]

/-- C6, witness: idempotence after stripping a starred word, and the
bold form around plain text. -/
theorem C6_strip_markdown_witness :
    stripMarkdown (stripMarkdown "*a*") = stripMarkdown "*a*" ∧
    stripMarkdown ("**" ++ "bold" ++ "**") = "bold" :=
  ⟨C6_strip_markdown.1 "*a*" (by decide),
    (C6_strip_markdown.2 "bold" "u" (by decide) (by decide) (by decide)).2.2.2.1⟩

end OpenDevin
